import Mathlib

/-!
# Listener registry of `data/binding/binding.go`

A shallow embedding of the registry type `base` and its three operations
`AddListener`, `RemoveListener` and `trigger`, followed by theorems about them.

Modelling decisions.

* A `DataListener` interface value is either the nil interface or a reference
  with an address; `==` on two interface values is equality of these.
* `sync.RWMutex` is modelled by what it allows. `AddListener` and
  `RemoveListener` hold the lock exclusively for their whole body, so they are
  atomic and a history of calls is a sequence. `trigger` holds it in shared
  mode: several `trigger` calls may run at the same time, with no writer among
  them; `ConcState` and `concStep` describe that, one submission per step.
* The process-wide dispatch queue is the list of notifications submitted so
  far, each recorded by the listener it is for.
* A Go slice is a window `arr[0:len]` on a backing array. Between calls only the
  window of `b.listeners` is observable, so `base` stores the window as a list;
  inside `RemoveListener`, where the `range` loop reads the backing array
  through its own copy of the slice header, the array and the length are kept
  apart.
* A run-time panic is an outcome of its own, carrying the state at the panic.
-/

namespace Binding

/-- A value of interface type `DataListener`: the nil interface, or a reference
to a listener object at some address. -/
inductive DataListener where
  | nil : DataListener
  | ref (addr : Nat) : DataListener
  deriving DecidableEq, Repr

/-- The struct `base`, without its lock. -/
structure base where
  listeners : List DataListener
  deriving DecidableEq, Repr

/-- A registry together with the dispatch queue it submits to. -/
structure World where
  b : base
  queue : List DataListener
  deriving DecidableEq, Repr

/-- How a call ends: it returns, or it stops in a run-time panic. Both carry
the state that the call leaves behind. -/
inductive Outcome (α : Type) where
  | returned (a : α) : Outcome α
  | panicked (a : α) : Outcome α
  deriving DecidableEq, Repr

/-- The registry of a freshly created item and an empty dispatch queue. -/
def World.empty : World := ⟨⟨[]⟩, []⟩

/-- The method value `l.DataChanged`. Evaluating it on the nil interface is a
run-time panic (`none`); otherwise it is the notification bound to `l`. -/
def DataChanged (l : DataListener) : Option DataListener :=
  match l with
  | DataListener.nil => none
  | DataListener.ref a => some (DataListener.ref a)

/-- Modelled from the spec: `queueItem` is defined in another file of the
package. The dispatch queue keeps every submitted item, in submission order, so
submitting puts the item at the end of the queue. -/
def queueItem (queue : List DataListener) (f : DataListener) : List DataListener :=
  queue ++ [f]

/-- The scan `for _, listen := range b.listeners { if listen == l { return } }`
of `AddListener`: `true` when the early `return` is taken. -/
def addScan (l : DataListener) : List DataListener → Bool
  | [] => false
  | listen :: rest => if listen = l then true else addScan l rest

/-- The method `func (b *base) AddListener(l DataListener)`. -/
def AddListener (w : World) (l : DataListener) : Outcome World :=
  if addScan l w.b.listeners then
    Outcome.returned w
  else
    let b1 : base := ⟨w.b.listeners ++ [l]⟩
    match DataChanged l with
    | none => Outcome.panicked ⟨b1, w.queue⟩
    | some f => Outcome.returned ⟨b1, queueItem w.queue f⟩

/-- The slice `b.listeners` while `RemoveListener` runs: the backing array, as
far as the `range` loop can read it, and the current length. -/
structure SliceView where
  arr : List DataListener
  len : Nat
  deriving DecidableEq, Repr

/-- The elements of the slice: `arr[0:len]`. -/
def SliceView.toList (v : SliceView) : List DataListener := v.arr.take v.len

/-- One iteration of the loop of `RemoveListener`, at index `i`.

`listen` is read from the backing array. `i == len(b.listeners)-1` is written
`i + 1 = len`, which is the same comparison on Go integers and is also right for
`len = 0`. `b.listeners[i+1:]` panics when `i+1 > len(b.listeners)`. The
`append` stays inside the capacity, so it copies `arr[i+1:len]` down to
`arr[i:len-1]` in place and leaves `arr[len-1]` as it was. -/
def removeBody (l : DataListener) (i : Nat) (v : SliceView) : Outcome SliceView :=
  match v.arr.get? i with
  | none => Outcome.panicked v
  | some listen =>
    if listen ≠ l then
      Outcome.returned v
    else if i + 1 = v.len then
      Outcome.returned ⟨v.arr, v.len - 1⟩
    else if v.len < i + 1 then
      Outcome.panicked v
    else
      Outcome.returned
        ⟨v.arr.take i ++ (v.arr.drop (i + 1)).take (v.len - (i + 1)) ++ v.arr.drop (v.len - 1),
          v.len - 1⟩

/-- The loop `for i, listen := range b.listeners` of `RemoveListener`, from
index `i` on, with `todo` iterations left. The number of iterations is fixed
when the loop starts: it is the length the slice had then. -/
def removeLoop (l : DataListener) : Nat → Nat → SliceView → Outcome SliceView
  | 0, _, v => Outcome.returned v
  | todo + 1, i, v =>
    match removeBody l i v with
    | Outcome.returned v1 => removeLoop l todo (i + 1) v1
    | Outcome.panicked v1 => Outcome.panicked v1

/-- The method `func (b *base) RemoveListener(l DataListener)`. -/
def RemoveListener (w : World) (l : DataListener) : Outcome World :=
  let n := w.b.listeners.length
  match removeLoop l n 0 ⟨w.b.listeners, n⟩ with
  | Outcome.returned v => Outcome.returned ⟨⟨v.toList⟩, w.queue⟩
  | Outcome.panicked v => Outcome.panicked ⟨⟨v.toList⟩, w.queue⟩

/-- The loop of `trigger`: one `queueItem(listen.DataChanged)` per listener. -/
def triggerLoop : List DataListener → List DataListener → Outcome (List DataListener)
  | [], queue => Outcome.returned queue
  | listen :: rest, queue =>
    match DataChanged listen with
    | none => Outcome.panicked queue
    | some f => triggerLoop rest (queueItem queue f)

/-- The method `func (b *base) trigger()`. -/
def trigger (w : World) : Outcome World :=
  match triggerLoop w.b.listeners w.queue with
  | Outcome.returned queue => Outcome.returned ⟨w.b, queue⟩
  | Outcome.panicked queue => Outcome.panicked ⟨w.b, queue⟩

/-- A call on the registry. -/
inductive Op where
  | add (l : DataListener) : Op
  | remove (l : DataListener) : Op
  | fire : Op
  deriving DecidableEq, Repr

/-- Performs one call. -/
def step (w : World) : Op → Outcome World
  | Op.add l => AddListener w l
  | Op.remove l => RemoveListener w l
  | Op.fire => trigger w

/-- Performs a sequence of calls, one after the other. A panic ends the run. -/
def run : List Op → World → Outcome World
  | [], w => Outcome.returned w
  | op :: ops, w =>
    match step w op with
    | Outcome.returned w1 => run ops w1
    | Outcome.panicked w1 => Outcome.panicked w1

/-- A call whose listener argument, if it has one, is not nil. -/
def Op.nonNil : Op → Prop
  | Op.add l => l ≠ DataListener.nil
  | Op.remove l => l ≠ DataListener.nil
  | Op.fire => True

instance (op : Op) : Decidable op.nonNil := by
  cases op <;> simp only [Op.nonNil] <;> infer_instance

/-- The state that a call leaves behind, however it ends. -/
def Outcome.state {α : Type} : Outcome α → α
  | Outcome.returned a => a
  | Outcome.panicked a => a

/-- What the loop of `RemoveListener` leaves of a sequence. Scanning from the
left, a listener equal to `l` is dropped; the listener right after a dropped
one is moved by the shift under the index just visited, so it is kept without
being compared. -/
def eraseSkip (l : DataListener) : List DataListener → List DataListener
  | [] => []
  | [x] => if x = l then [] else [x]
  | x :: y :: ys => if x = l then y :: eraseSkip l ys else x :: eraseSkip l (y :: ys)

/-- The number of removals that the loop of `RemoveListener` does by shifting
(a removal of the last element of the slice truncates instead). -/
def shiftCount (l : DataListener) : List DataListener → Nat
  | [] => 0
  | [_] => 0
  | x :: y :: ys => if x = l then shiftCount l ys + 1 else shiftCount l (y :: ys)

/-- The registry invariant: no listener occurs twice and none is nil. -/
def Inv (w : World) : Prop :=
  w.b.listeners.Nodup ∧ ∀ x ∈ w.b.listeners, x ≠ DataListener.nil

/-- A function value of type `func()`, recorded by an identifier. Two
callbacks that do the same thing may carry the same identifier. -/
structure Callback where
  id : Nat
  deriving DecidableEq, Repr

/-- The struct `listener`: a wrapper around one callback. -/
structure listener where
  callback : Callback
  deriving DecidableEq, Repr

/-- The `listener` objects allocated so far. An object lives at the address
that is its position in the list, so an allocation takes the next free
address and no later allocation can be given an address already in use. -/
structure Heap where
  objects : List listener
  deriving DecidableEq, Repr

/-- The function `NewDataListener(fn)`: `return &listener{fn}`. Taking the
address of the composite literal allocates a new `listener` variable; the
result is the interface value that holds the pointer to it. -/
def NewDataListener (h : Heap) (fn : Callback) : DataListener × Heap :=
  (DataListener.ref h.objects.length, ⟨h.objects ++ [⟨fn⟩]⟩)

/-- Whether two occurrences of `l` stand next to each other in a sequence. -/
def adjacentPair (l : DataListener) : List DataListener → Bool
  | [] => false
  | [_] => false
  | x :: y :: ys => (decide (x = l) && decide (y = l)) || adjacentPair l (y :: ys)

/-- The registry after `n` calls of `RemoveListener(l)` in a row, each taken
with the state that the call before it left behind, however that call ended. -/
def removeTimes (l : DataListener) : Nat → World → World
  | 0, w => w
  | n + 1, w => removeTimes l n (RemoveListener w l).state

/-- `N` calls of `trigger()` that run at the same time. They all hold the lock
in shared mode, so no `AddListener` or `RemoveListener` runs meanwhile and
`b` stays as it is. For each call `pending` holds the part of `b.listeners`
that its loop has not visited yet; `queue` is the dispatch queue; `log` records
every submission together with the call that made it. -/
structure ConcState where
  b : base
  pending : List (List DataListener)
  queue : List DataListener
  log : List (Nat × DataListener)
  deriving DecidableEq, Repr

/-- The moment at which `N` calls of `trigger()` have all taken the shared lock
and none has started its loop. -/
def concStart (N : Nat) (w : World) : ConcState :=
  ⟨w.b, List.replicate N w.b.listeners, w.queue, []⟩

/-- One scheduling step: call number `t` runs the next iteration of its loop,
`queueItem(listen.DataChanged)`, as one atomic submission. The result is
`none` when there is no such call, when the call has finished its loop, or when
the iteration panics on a nil listener. -/
def concStep (c : ConcState) (t : Nat) : Option ConcState :=
  match c.pending[t]? with
  | none => none
  | some [] => none
  | some (listen :: rest) =>
    match DataChanged listen with
    | none => none
    | some f => some ⟨c.b, c.pending.set t rest, queueItem c.queue f, c.log ++ [(t, f)]⟩

/-- Runs a schedule: the list of the calls that take the successive steps. -/
def concRun : List Nat → ConcState → Option ConcState
  | [], c => some c
  | t :: sched, c =>
    match concStep c t with
    | none => none
    | some c1 => concRun sched c1

/-- All calls have finished their loops. -/
def ConcState.finished (c : ConcState) : Prop := ∀ p ∈ c.pending, p = []

instance (c : ConcState) : Decidable c.finished := by
  unfold ConcState.finished; infer_instance

/-- The notifications that call number `t` has submitted, in submission order. -/
def submittedBy (t : Nat) (log : List (Nat × DataListener)) : List DataListener :=
  (log.filter (fun e => decide (e.1 = t))).map Prod.snd

/-- What holds at every moment while `N` calls of `trigger()` run at the same
time on the listeners `s`, started with the queue `q`: the registry is
untouched, the queue is `q` followed by the logged submissions, every
submission still owed is counted, and each call has submitted the part of `s`
that comes before what it has still to visit. -/
def ConcInv (N : Nat) (s q : List DataListener) (c : ConcState) : Prop :=
  c.b = ⟨s⟩ ∧ c.pending.length = N ∧ c.queue = q ++ c.log.map Prod.snd ∧
  c.queue.length + (c.pending.map List.length).sum = q.length + N * s.length ∧
  ∀ t p, c.pending[t]? = some p → submittedBy t c.log ++ p = s

/-! ## The loop of `RemoveListener` -/

theorem get?_window (front rest : List DataListener) (e : DataListener) :
    (front ++ e :: rest).get? front.length = some e := by
  induction front with
  | nil => rfl
  | cons a front ih => simpa using ih

theorem take_window (front rest : List DataListener) (e : DataListener) :
    (front ++ e :: rest).take (front.length + 1) = front ++ [e] := by
  have h : front ++ e :: rest = (front ++ [e]) ++ rest := by simp
  rw [h]
  exact List.take_left' (by simp)

theorem removeBody_skip (l x : DataListener) (i : Nat) (v : SliceView)
    (hget : v.arr.get? i = some x) (hx : x ≠ l) :
    removeBody l i v = Outcome.returned v := by
  unfold removeBody
  rw [hget]
  simp only [if_pos hx]

theorem removeBody_last (l : DataListener) (i : Nat) (v : SliceView)
    (hget : v.arr.get? i = some l) (hlen : i + 1 = v.len) :
    removeBody l i v = Outcome.returned ⟨v.arr, v.len - 1⟩ := by
  unfold removeBody
  rw [hget]
  simp only [ne_eq, not_true_eq_false, if_false, if_pos hlen]

theorem removeBody_beyond (l : DataListener) (i : Nat) (v : SliceView)
    (hget : v.arr.get? i = some l) (hlen : v.len < i + 1) :
    removeBody l i v = Outcome.panicked v := by
  unfold removeBody
  rw [hget]
  have h1 : ¬ (i + 1 = v.len) := by omega
  simp only [ne_eq, not_true_eq_false, if_false, if_neg h1, if_pos hlen]

theorem removeBody_shift (l : DataListener) (i : Nat) (v : SliceView)
    (hget : v.arr.get? i = some l) (hlen : i + 1 < v.len) :
    removeBody l i v = Outcome.returned
      ⟨v.arr.take i ++ (v.arr.drop (i + 1)).take (v.len - (i + 1)) ++ v.arr.drop (v.len - 1),
        v.len - 1⟩ := by
  unfold removeBody
  rw [hget]
  have h1 : ¬ (i + 1 = v.len) := by omega
  have h2 : ¬ (v.len < i + 1) := by omega
  simp only [ne_eq, not_true_eq_false, if_false, if_neg h1, if_neg h2]

theorem removeLoop_succ (l : DataListener) (todo i : Nat) (v v1 : SliceView)
    (h : removeBody l i v = Outcome.returned v1) :
    removeLoop l (todo + 1) i v = removeLoop l todo (i + 1) v1 := by
  simp only [removeLoop, h]

theorem removeLoop_panic (l : DataListener) (todo i : Nat) (v v1 : SliceView)
    (h : removeBody l i v = Outcome.panicked v1) :
    removeLoop l (todo + 1) i v = Outcome.panicked v1 := by
  simp only [removeLoop, h]

/-- Past the end of the slice the loop reads only stale copies of `z`: they
are harmless unless `z` is the listener being removed. -/
theorem removeLoop_stale (l z : DataListener) :
    ∀ (stale front : List DataListener) (todo i : Nat) (arr : List DataListener) (len : Nat),
      todo = stale.length → i = front.length → arr = front ++ stale → len ≤ i →
      (∀ e ∈ stale, e = z) →
      removeLoop l todo i ⟨arr, len⟩ =
        if z = l ∧ 0 < todo then Outcome.panicked ⟨arr, len⟩
        else Outcome.returned ⟨arr, len⟩ := by
  intro stale
  induction stale with
  | nil =>
    intro front todo i arr len ht _ _ _ _
    subst ht
    simp [removeLoop]
  | cons e rest ih =>
    intro front todo i arr len ht hi harr hlen hz
    have he : e = z := hz e (List.mem_cons_self _ _)
    have hrest : ∀ a ∈ rest, a = z := fun a ha => hz a (List.mem_cons_of_mem _ ha)
    subst he ht hi harr
    have hget : (front ++ e :: rest).get? front.length = some e := get?_window front rest e
    by_cases hl : e = l
    · subst hl
      have hb := removeBody_beyond e front.length ⟨front ++ e :: rest, len⟩ hget
        (Nat.lt_succ_of_le hlen)
      rw [List.length_cons, removeLoop_panic _ _ _ _ _ hb]
      simp
    · have hb := removeBody_skip l e front.length ⟨front ++ e :: rest, len⟩ hget hl
      rw [List.length_cons, removeLoop_succ _ _ _ _ _ hb]
      rw [ih (front ++ [e]) rest.length (front.length + 1) (front ++ e :: rest) len rfl
        (by simp) (by simp) (by omega) hrest]
      simp [hl]

theorem shift_window (kept mid stale : List DataListener) (x z : DataListener) :
    (kept ++ (x :: (mid ++ [z])) ++ stale).take kept.length
      ++ ((kept ++ (x :: (mid ++ [z])) ++ stale).drop (kept.length + 1)).take
          (kept.length + (mid.length + 2) - (kept.length + 1))
      ++ (kept ++ (x :: (mid ++ [z])) ++ stale).drop (kept.length + (mid.length + 2) - 1)
      = kept ++ (mid ++ [z]) ++ (z :: stale) := by
  have e1 : (kept ++ (x :: (mid ++ [z])) ++ stale).take kept.length = kept := by
    rw [List.append_assoc]; exact List.take_left _ _
  have e2 : (kept ++ (x :: (mid ++ [z])) ++ stale).drop (kept.length + 1)
      = (mid ++ [z]) ++ stale := by
    rw [List.append_assoc, List.drop_append]; rfl
  have e3 : kept.length + (mid.length + 2) - (kept.length + 1) = (mid ++ [z]).length := by
    simp only [List.length_append, List.length_singleton]
    omega
  have e4 : (kept ++ (x :: (mid ++ [z])) ++ stale).drop (kept.length + (mid.length + 2) - 1)
      = z :: stale := by
    have : kept ++ (x :: (mid ++ [z])) ++ stale = (kept ++ x :: mid) ++ (z :: stale) := by simp
    rw [this]
    apply List.drop_left'
    simp only [List.length_append, List.length_cons]
    omega
  rw [e1, e2, e3, List.take_left, e4]

theorem removeLoop_window_nil (l z : DataListener)
    (kept stale : List DataListener) (todo i : Nat) (arr : List DataListener) (len : Nat)
    (ht : todo = stale.length) (hi : i = kept.length) (harr : arr = kept ++ stale)
    (hlen : len = kept.length) (hz : ∀ e ∈ stale, e = z) :
    ∃ v : SliceView, v.toList = kept ∧
      removeLoop l todo i ⟨arr, len⟩ =
        if z = l ∧ 0 < stale.length then Outcome.panicked v else Outcome.returned v := by
  refine ⟨⟨arr, len⟩, ?_, ?_⟩
  · subst harr hlen
    simp [SliceView.toList]
  · rw [removeLoop_stale l z stale kept todo i arr len ht hi harr (by omega) hz, ht]

/-- The loop of `RemoveListener` at index `i`, when the array is `kept`, then
the part `pending` of the slice still to visit, then `stale` copies of the last
element `z`. It leaves `kept ++ eraseSkip l pending`, and panics exactly when
`z` is removed and a stale copy of it is visited afterwards. -/
theorem removeLoop_window (l z : DataListener) :
    ∀ (n : Nat) (pending kept stale : List DataListener) (todo i : Nat)
      (arr : List DataListener) (len : Nat),
      pending.length ≤ n → todo = pending.length + stale.length → i = kept.length →
      arr = kept ++ (pending ++ stale) → len = kept.length + pending.length →
      (∀ e ∈ stale, e = z) → (pending ≠ [] → pending.getLast? = some z) →
      ∃ v : SliceView, v.toList = kept ++ eraseSkip l pending ∧
        removeLoop l todo i ⟨arr, len⟩ =
          if z = l ∧ 0 < stale.length + shiftCount l pending then Outcome.panicked v
          else Outcome.returned v := by
  intro n
  induction n with
  | zero =>
    intro pending kept stale todo i arr len hn ht hi harr hlen hz _
    have hp : pending = [] := List.length_eq_zero.mp (Nat.le_zero.mp hn)
    subst hp
    have h := removeLoop_window_nil l z kept stale todo i arr len (by simpa using ht) hi
      (by simpa using harr) (by simpa using hlen) hz
    simpa [eraseSkip, shiftCount] using h
  | succ n ih =>
    intro pending kept stale todo i arr len hn ht hi harr hlen hz hlast
    match pending, hn, ht, harr, hlen, hlast with
    | [], _, ht, harr, hlen, _ =>
      have h := removeLoop_window_nil l z kept stale todo i arr len (by simpa using ht) hi
        (by simpa using harr) (by simpa using hlen) hz
      simpa [eraseSkip, shiftCount] using h
    | [x], _, ht, harr, hlen, hlast =>
      have hx : x = z := by simpa using hlast (by simp)
      subst hx
      have hget : arr.get? i = some x := by
        rw [harr, hi]; exact get?_window kept _ x
      have ht2 : todo = stale.length + 1 := by
        rw [ht]; simp only [List.length_singleton]; omega
      have hlen2 : len = kept.length + 1 := by rw [hlen]; rfl
      subst ht2
      by_cases hl : x = l
      · subst hl
        have hb := removeBody_last x i ⟨arr, len⟩ hget (by simp only []; omega)
        rw [removeLoop_succ _ _ _ _ _ hb]
        have h := removeLoop_stale x x stale (kept ++ [x]) stale.length (i + 1) arr (len - 1)
          rfl (by simp [hi]) (by simp [harr]) (by omega) hz
        refine ⟨⟨arr, len - 1⟩, ?_, ?_⟩
        · subst harr hlen2
          simp [SliceView.toList, eraseSkip]
        · simp only [] at h ⊢
          rw [h]
          simp [shiftCount]
      · have hb := removeBody_skip l x i ⟨arr, len⟩ hget hl
        rw [removeLoop_succ _ _ _ _ _ hb]
        have h := removeLoop_stale l x stale (kept ++ [x]) stale.length (i + 1) arr len
          rfl (by simp [hi]) (by simp [harr]) (by omega) hz
        refine ⟨⟨arr, len⟩, ?_, ?_⟩
        · subst harr hlen2
          simp only [SliceView.toList, eraseSkip, if_neg hl, List.singleton_append]
          exact take_window kept stale x
        · rw [h]
          simp [hl]
    | x :: y :: ys, hn, ht, harr, hlen, hlast =>
      have hlast2 : (y :: ys).getLast? = some z := by simpa using hlast (by simp)
      have hget : arr.get? i = some x := by
        rw [harr, hi]; exact get?_window kept _ x
      have ht2 : todo = (ys.length + 1 + stale.length) + 1 := by
        rw [ht]; simp only [List.length_cons]; omega
      have hlen2 : len = kept.length + (ys.length + 2) := by
        rw [hlen]; simp only [List.length_cons]
      subst ht2
      by_cases hl : x = l
      · subst hl
        obtain ⟨mid, hmid⟩ := List.getLast?_eq_some_iff.mp hlast2
        have hmidlen : ys.length = mid.length := by
          have := congrArg List.length hmid
          simp only [List.length_cons, List.length_append, List.length_singleton, List.length_nil] at this
          omega
        have hys : ys.length ≤ n := by
          simp only [List.length_cons] at hn; omega
        have hlast3 : ys ≠ [] → ys.getLast? = some z := by
          intro hne
          cases ys with
          | nil => exact absurd rfl hne
          | cons a ys => simpa using hlast2
        have hlt : i + 1 < len := by rw [hlen2, hi]; omega
        have hb := removeBody_shift x i ⟨arr, len⟩ hget hlt
        have hw := shift_window kept mid stale x z
        rw [← hmid] at hw
        have harr2 : arr = kept ++ (x :: y :: ys) ++ stale := by rw [harr]; simp
        have harr3 : arr.take i ++ (arr.drop (i + 1)).take (len - (i + 1)) ++ arr.drop (len - 1)
            = kept ++ (y :: ys) ++ (z :: stale) := by
          rw [hi, hlen2, hmidlen, harr2]; exact hw
        rw [removeLoop_succ _ _ _ _ _ hb]
        simp only []
        rw [harr3]
        obtain ⟨v, hv, hrun⟩ := ih ys (kept ++ [y]) (z :: stale)
          (ys.length + 1 + stale.length) (i + 1) (kept ++ (y :: ys) ++ (z :: stale))
          (len - 1) hys
          (by simp only [List.length_cons]; omega) (by simp [hi]) (by simp)
          (by rw [hlen2]; simp only [List.length_append, List.length_singleton]; omega)
          (by intro a ha; rcases List.mem_cons.mp ha with h | h
              · exact h
              · exact hz a h) hlast3
        refine ⟨v, ?_, ?_⟩
        · simp [hv, eraseSkip]
        · rw [hrun]
          have e8 : (z :: stale).length + shiftCount x ys
              = stale.length + shiftCount x (x :: y :: ys) := by
            simp only [shiftCount, if_true, List.length_cons]; omega
          rw [e8]
      · have hyl : (y :: ys).length ≤ n := by
          simp only [List.length_cons] at hn ⊢; omega
        have hb := removeBody_skip l x i ⟨arr, len⟩ hget hl
        rw [removeLoop_succ _ _ _ _ _ hb]
        obtain ⟨v, hv, hrun⟩ := ih (y :: ys) (kept ++ [x]) stale
          (ys.length + 1 + stale.length) (i + 1) arr len hyl
          (by simp only [List.length_cons]) (by simp [hi]) (by simp [harr])
          (by rw [hlen2]; simp only [List.length_append, List.length_singleton,
                List.length_cons, List.length_nil]; omega)
          hz (fun _ => hlast2)
        refine ⟨v, ?_, ?_⟩
        · simp [hv, eraseSkip, hl]
        · rw [hrun]
          simp only [shiftCount, if_neg hl]

/-- Closed form of `RemoveListener`: it leaves `eraseSkip l s`, and it panics
exactly when `l` is the last listener and an earlier removal has shifted the
slice. -/
theorem RemoveListener_eq (s q : List DataListener) (l : DataListener) :
    RemoveListener ⟨⟨s⟩, q⟩ l =
      if s.getLast? = some l ∧ 0 < shiftCount l s
      then Outcome.panicked ⟨⟨eraseSkip l s⟩, q⟩
      else Outcome.returned ⟨⟨eraseSkip l s⟩, q⟩ := by
  cases hlast : s.getLast? with
  | none =>
    have hs : s = [] := List.getLast?_eq_none_iff.mp hlast
    subst hs
    simp [RemoveListener, removeLoop, SliceView.toList, eraseSkip]
  | some z =>
    obtain ⟨v, hv, hrun⟩ := removeLoop_window l z s.length s [] [] s.length 0 s s.length
      (le_refl _) (by simp) rfl (by simp) (by simp) (by simp) (fun _ => hlast)
    simp only [RemoveListener]
    rw [hrun]
    simp only [List.nil_append] at hv
    by_cases hc : z = l ∧ 0 < shiftCount l s
    · have hc2 : z = l ∧ 0 < ([] : List DataListener).length + shiftCount l s := by
        simpa using hc
      have hc3 : some z = some l ∧ 0 < shiftCount l s := ⟨by rw [hc.1], hc.2⟩
      rw [if_pos hc2, if_pos hc3]
      simp only [hv]
    · have hc2 : ¬ (z = l ∧ 0 < ([] : List DataListener).length + shiftCount l s) := by
        simpa using hc
      have hc3 : ¬ (some z = some l ∧ 0 < shiftCount l s) := by
        intro h; exact hc ⟨Option.some.inj h.1, h.2⟩
      rw [if_neg hc2, if_neg hc3]
      simp only [hv]

theorem eraseSkip_of_not_mem (l : DataListener) :
    ∀ (n : Nat) (s : List DataListener), s.length ≤ n → l ∉ s →
      eraseSkip l s = s ∧ shiftCount l s = 0 := by
  intro n
  induction n with
  | zero =>
    intro s hn _
    have hs : s = [] := List.length_eq_zero.mp (Nat.le_zero.mp hn)
    subst hs
    simp [eraseSkip, shiftCount]
  | succ n ih =>
    intro s hn hmem
    match s, hn, hmem with
    | [], _, _ => simp [eraseSkip, shiftCount]
    | [x], _, hmem =>
      have hx : x ≠ l := fun h => hmem (by simp [h])
      simp [eraseSkip, shiftCount, hx]
    | x :: y :: ys, hn, hmem =>
      have hx : x ≠ l := fun h => hmem (by simp [h])
      have hrest : l ∉ y :: ys := fun h => hmem (List.mem_cons_of_mem _ h)
      have hlen : (y :: ys).length ≤ n := by
        simp only [List.length_cons] at hn ⊢; omega
      obtain ⟨h1, h2⟩ := ih (y :: ys) hlen hrest
      simp only [eraseSkip, shiftCount, if_neg hx, h1, h2, and_self]

theorem eraseSkip_nodup (l : DataListener) :
    ∀ (n : Nat) (s : List DataListener), s.length ≤ n → s.Nodup →
      eraseSkip l s = s.erase l ∧ (s.getLast? = some l → shiftCount l s = 0) := by
  intro n
  induction n with
  | zero =>
    intro s hn _
    have hs : s = [] := List.length_eq_zero.mp (Nat.le_zero.mp hn)
    subst hs
    simp [eraseSkip, shiftCount]
  | succ n ih =>
    intro s hn hnd
    match s, hn, hnd with
    | [], _, _ => simp [eraseSkip, shiftCount]
    | [x], _, _ =>
      by_cases hx : x = l
      · subst hx; simp [eraseSkip, shiftCount]
      · have hne : (x == l) = false := by simpa using hx
        simp [eraseSkip, shiftCount, hx, List.erase_cons, hne]
    | x :: y :: ys, hn, hnd =>
      have hxn : x ∉ y :: ys := (List.nodup_cons.mp hnd).1
      have hnd2 : (y :: ys).Nodup := (List.nodup_cons.mp hnd).2
      by_cases hx : x = l
      · subst hx
        have hys : x ∉ ys := fun h => hxn (List.mem_cons_of_mem _ h)
        have h1 := (eraseSkip_of_not_mem x ys.length ys (le_refl _) hys).1
        refine ⟨?_, ?_⟩
        · simp [eraseSkip, h1]
        · intro hlast
          rw [List.getLast?_cons_cons] at hlast
          exact absurd (List.mem_of_getLast?_eq_some hlast) hxn
      · have hlen : (y :: ys).length ≤ n := by
          simp only [List.length_cons] at hn ⊢; omega
        obtain ⟨h1, h2⟩ := ih (y :: ys) hlen hnd2
        refine ⟨?_, ?_⟩
        · simp only [eraseSkip, if_neg hx, h1]
          have he : (x :: y :: ys).erase l = x :: (y :: ys).erase l :=
            List.erase_cons_tail (by simpa using hx)
          rw [he]
        · intro hlast
          rw [List.getLast?_cons_cons] at hlast
          simp only [shiftCount, if_neg hx]
          exact h2 hlast

theorem eraseSkip_sublist (l : DataListener) :
    ∀ (n : Nat) (s : List DataListener), s.length ≤ n →
      (eraseSkip l s).Sublist (s.erase l) ∧ (eraseSkip l s).Sublist s ∧
        (eraseSkip l s).filter (fun x => decide (x ≠ l)) = s.filter (fun x => decide (x ≠ l)) := by
  intro n
  induction n with
  | zero =>
    intro s hn
    have hs : s = [] := List.length_eq_zero.mp (Nat.le_zero.mp hn)
    subst hs
    simp [eraseSkip]
  | succ n ih =>
    intro s hn
    match s, hn with
    | [], _ => simp [eraseSkip]
    | [x], _ =>
      by_cases hx : x = l
      · subst hx; simp [eraseSkip]
      · have he : [x].erase l = [x] := by
          rw [List.erase_cons_tail (by simpa using hx)]; rfl
        simp [eraseSkip, hx, he]
    | x :: y :: ys, hn =>
      by_cases hx : x = l
      · subst hx
        have hlen : ys.length ≤ n := by
          simp only [List.length_cons] at hn; omega
        obtain ⟨_, h2, h3⟩ := ih ys hlen
        have hy : (eraseSkip x (x :: y :: ys)) = y :: eraseSkip x ys := by
          simp [eraseSkip]
        rw [hy, List.erase_cons_head]
        refine ⟨h2.cons₂ y, (h2.cons₂ y).cons x, ?_⟩
        have hxf : List.filter (fun a => decide (a ≠ x)) (x :: y :: ys)
            = List.filter (fun a => decide (a ≠ x)) (y :: ys) :=
          List.filter_cons_of_neg (by simp)
        rw [hxf]
        simp only [List.filter_cons, h3]
      · have hlen : (y :: ys).length ≤ n := by
          simp only [List.length_cons] at hn ⊢; omega
        obtain ⟨h1, h2, h3⟩ := ih (y :: ys) hlen
        have hy : (eraseSkip l (x :: y :: ys)) = x :: eraseSkip l (y :: ys) := by
          simp [eraseSkip, hx]
        have he : (x :: y :: ys).erase l = x :: (y :: ys).erase l :=
          List.erase_cons_tail (by simpa using hx)
        rw [hy, he]
        refine ⟨h1.cons₂ x, h2.cons₂ x, ?_⟩
        simp only [List.filter_cons, h3]

theorem addScan_eq (l : DataListener) (s : List DataListener) :
    addScan l s = decide (l ∈ s) := by
  induction s with
  | nil => simp [addScan]
  | cons x s ih =>
    by_cases hx : x = l
    · simp [addScan, hx]
    · have hx2 : ¬ l = x := fun h => hx h.symm
      simp [addScan, hx, hx2, ih]

theorem AddListener_present (s q : List DataListener) (l : DataListener) (h : l ∈ s) :
    AddListener ⟨⟨s⟩, q⟩ l = Outcome.returned ⟨⟨s⟩, q⟩ := by
  simp [AddListener, addScan_eq, h]

theorem AddListener_absent (s q : List DataListener) (l : DataListener) (h : l ∉ s)
    (hl : l ≠ DataListener.nil) :
    AddListener ⟨⟨s⟩, q⟩ l = Outcome.returned ⟨⟨s ++ [l]⟩, q ++ [l]⟩ := by
  cases l with
  | nil => exact absurd rfl hl
  | ref a => simp [AddListener, addScan_eq, h, DataChanged, queueItem]

theorem AddListener_nil_absent (s q : List DataListener) (h : DataListener.nil ∉ s) :
    AddListener ⟨⟨s⟩, q⟩ DataListener.nil
      = Outcome.panicked ⟨⟨s ++ [DataListener.nil]⟩, q⟩ := by
  simp [AddListener, addScan_eq, h, DataChanged]

theorem triggerLoop_nonNil :
    ∀ (s q : List DataListener), (∀ x ∈ s, x ≠ DataListener.nil) →
      triggerLoop s q = Outcome.returned (q ++ s) := by
  intro s
  induction s with
  | nil => intro q _; simp [triggerLoop]
  | cons x s ih =>
    intro q hs
    have hx : x ≠ DataListener.nil := hs x (List.mem_cons_self _ _)
    have hrest : ∀ y ∈ s, y ≠ DataListener.nil := fun y hy => hs y (List.mem_cons_of_mem _ hy)
    cases x with
    | nil => exact absurd rfl hx
    | ref a =>
      simp only [triggerLoop, DataChanged, queueItem]
      rw [ih _ hrest]
      simp

theorem trigger_nonNil (s q : List DataListener) (hs : ∀ x ∈ s, x ≠ DataListener.nil) :
    trigger ⟨⟨s⟩, q⟩ = Outcome.returned ⟨⟨s⟩, q ++ s⟩ := by
  simp only [trigger]
  rw [triggerLoop_nonNil s q hs]

theorem trigger_state_b (w : World) : (trigger w).state.b = w.b := by
  simp only [trigger]
  cases triggerLoop w.b.listeners w.queue <;> rfl

theorem RemoveListener_nodup (s q : List DataListener) (l : DataListener) (hs : s.Nodup) :
    RemoveListener ⟨⟨s⟩, q⟩ l = Outcome.returned ⟨⟨s.erase l⟩, q⟩ := by
  obtain ⟨h1, h2⟩ := eraseSkip_nodup l s.length s (le_refl _) hs
  rw [RemoveListener_eq, h1]
  have hc : ¬ (s.getLast? = some l ∧ 0 < shiftCount l s) := by
    intro h
    have := h2 h.1
    omega
  rw [if_neg hc]

theorem RemoveListener_absent (s q : List DataListener) (l : DataListener) (h : l ∉ s) :
    RemoveListener ⟨⟨s⟩, q⟩ l = Outcome.returned ⟨⟨s⟩, q⟩ := by
  obtain ⟨h1, h2⟩ := eraseSkip_of_not_mem l s.length s (le_refl _) h
  rw [RemoveListener_eq, h1, h2]
  simp

/-! ## Sequences that hold a listener more than once -/

theorem RemoveListener_state (s q : List DataListener) (l : DataListener) :
    (RemoveListener ⟨⟨s⟩, q⟩ l).state = ⟨⟨eraseSkip l s⟩, q⟩ := by
  rw [RemoveListener_eq]
  by_cases hc : s.getLast? = some l ∧ 0 < shiftCount l s
  · rw [if_pos hc]; rfl
  · rw [if_neg hc]; rfl

theorem adjacentPair_tail (l y : DataListener) (ys : List DataListener)
    (h : adjacentPair l (y :: ys) = false) : adjacentPair l ys = false := by
  cases ys with
  | nil => rfl
  | cons z r =>
    simp only [adjacentPair, Bool.or_eq_false_iff] at h
    exact h.2

theorem eraseSkip_filter (l : DataListener) :
    ∀ (n : Nat) (s : List DataListener), s.length ≤ n → adjacentPair l s = false →
      eraseSkip l s = s.filter (fun x => decide (x ≠ l)) := by
  intro n
  induction n with
  | zero =>
    intro s hn _
    have hs : s = [] := List.length_eq_zero.mp (Nat.le_zero.mp hn)
    subst hs
    simp [eraseSkip]
  | succ n ih =>
    intro s hn hadj
    match s, hn, hadj with
    | [], _, _ => simp [eraseSkip]
    | [x], _, _ =>
      by_cases hx : x = l
      · simp [eraseSkip, hx]
      · simp [eraseSkip, hx]
    | x :: y :: ys, hn, hadj =>
      have htail : adjacentPair l (y :: ys) = false := by
        simp only [adjacentPair, Bool.or_eq_false_iff] at hadj
        exact hadj.2
      by_cases hx : x = l
      · subst hx
        have hy : y ≠ x := by
          intro hyx
          simp [adjacentPair, hyx] at hadj
        have hlen : ys.length ≤ n := by
          simp only [List.length_cons] at hn; omega
        have h1 := ih ys hlen (adjacentPair_tail x y ys htail)
        have e1 : eraseSkip x (x :: y :: ys) = y :: eraseSkip x ys := by simp [eraseSkip]
        have e2 : List.filter (fun a => decide (a ≠ x)) (x :: y :: ys)
            = y :: List.filter (fun a => decide (a ≠ x)) ys := by
          rw [List.filter_cons_of_neg (by simp), List.filter_cons_of_pos (by simpa using hy)]
        rw [e1, e2, h1]
      · have hlen : (y :: ys).length ≤ n := by
          simp only [List.length_cons] at hn ⊢; omega
        have h1 := ih (y :: ys) hlen htail
        have e1 : eraseSkip l (x :: y :: ys) = x :: eraseSkip l (y :: ys) := by
          simp [eraseSkip, hx]
        have e2 : List.filter (fun a => decide (a ≠ l)) (x :: y :: ys)
            = x :: List.filter (fun a => decide (a ≠ l)) (y :: ys) :=
          List.filter_cons_of_pos (by simpa using hx)
        rw [e1, e2, h1]

theorem mem_eraseSkip_of_adjacent (l : DataListener) :
    ∀ (n : Nat) (s : List DataListener), s.length ≤ n → adjacentPair l s = true →
      l ∈ eraseSkip l s := by
  intro n
  induction n with
  | zero =>
    intro s hn hadj
    have hs : s = [] := List.length_eq_zero.mp (Nat.le_zero.mp hn)
    subst hs
    simp [adjacentPair] at hadj
  | succ n ih =>
    intro s hn hadj
    match s, hn, hadj with
    | [], _, hadj => simp [adjacentPair] at hadj
    | [x], _, hadj => simp [adjacentPair] at hadj
    | x :: y :: ys, hn, hadj =>
      by_cases hx : x = l
      · subst hx
        have e1 : eraseSkip x (x :: y :: ys) = y :: eraseSkip x ys := by simp [eraseSkip]
        rw [e1]
        by_cases hy : y = x
        · rw [hy]; exact List.mem_cons_self _ _
        · have hlen : ys.length ≤ n := by
            simp only [List.length_cons] at hn; omega
          have hadj2 : adjacentPair x ys = true := by
            cases ys with
            | nil => simp [adjacentPair, hy] at hadj
            | cons z r =>
              simp only [adjacentPair, hy, decide_False, Bool.and_false, Bool.false_and,
                Bool.false_or, Bool.or_eq_true] at hadj
              simpa [hy] using hadj
          exact List.mem_cons_of_mem _ (ih ys hlen hadj2)
      · have hlen : (y :: ys).length ≤ n := by
          simp only [List.length_cons] at hn ⊢; omega
        have hadj2 : adjacentPair l (y :: ys) = true := by
          simpa [adjacentPair, hx] using hadj
        have e1 : eraseSkip l (x :: y :: ys) = x :: eraseSkip l (y :: ys) := by
          simp [eraseSkip, hx]
        rw [e1]
        exact List.mem_cons_of_mem _ (ih (y :: ys) hlen hadj2)

theorem shiftCount_pos_of_count (l : DataListener) :
    ∀ (n : Nat) (s : List DataListener), s.length ≤ n → 2 ≤ s.count l →
      0 < shiftCount l s := by
  intro n
  induction n with
  | zero =>
    intro s hn hc
    have hs : s = [] := List.length_eq_zero.mp (Nat.le_zero.mp hn)
    subst hs
    simp at hc
  | succ n ih =>
    intro s hn hc
    match s, hn, hc with
    | [], _, hc => simp at hc
    | [x], _, hc =>
      have : [x].count l ≤ 1 := by
        have := List.count_le_length l [x]
        simpa using this
      omega
    | x :: y :: ys, hn, hc =>
      by_cases hx : x = l
      · simp [shiftCount, hx]
      · have hlen : (y :: ys).length ≤ n := by
          simp only [List.length_cons] at hn ⊢; omega
        have hc2 : 2 ≤ (y :: ys).count l := by
          rw [List.count_cons_of_ne (fun h => hx h.symm)] at hc
          exact hc
        simp only [shiftCount, if_neg hx]
        exact ih (y :: ys) hlen hc2

theorem count_of_shift_last (l : DataListener) :
    ∀ (n : Nat) (s : List DataListener), s.length ≤ n → 0 < shiftCount l s →
      s.getLast? = some l → 2 ≤ s.count l := by
  intro n
  induction n with
  | zero =>
    intro s hn hsh _
    have hs : s = [] := List.length_eq_zero.mp (Nat.le_zero.mp hn)
    subst hs
    simp [shiftCount] at hsh
  | succ n ih =>
    intro s hn hsh hlast
    match s, hn, hsh, hlast with
    | [], _, hsh, _ => simp [shiftCount] at hsh
    | [x], _, hsh, _ => simp [shiftCount] at hsh
    | x :: y :: ys, hn, hsh, hlast =>
      rw [List.getLast?_cons_cons] at hlast
      by_cases hx : x = l
      · subst hx
        have hmem : x ∈ y :: ys := List.mem_of_getLast?_eq_some hlast
        have hpos : 0 < (y :: ys).count x := List.count_pos_iff.mpr hmem
        rw [List.count_cons_self]
        omega
      · have hlen : (y :: ys).length ≤ n := by
          simp only [List.length_cons] at hn ⊢; omega
        simp only [shiftCount, if_neg hx] at hsh
        rw [List.count_cons_of_ne (fun h => hx h.symm)]
        exact ih (y :: ys) hlen hsh hlast

theorem count_eraseSkip_le (l : DataListener) (s : List DataListener) :
    (eraseSkip l s).count l ≤ s.count l - 1 := by
  obtain ⟨h1, _, _⟩ := eraseSkip_sublist l s.length s (le_refl _)
  have hle : (eraseSkip l s).count l ≤ (s.erase l).count l := h1.count_le l
  have he : (s.erase l).count l = s.count l - 1 := List.count_erase_self l s
  omega

theorem removeTimes_purges (l : DataListener) :
    ∀ (n : Nat) (s q : List DataListener), s.count l ≤ n →
      l ∉ (removeTimes l n ⟨⟨s⟩, q⟩).b.listeners := by
  intro n
  induction n with
  | zero =>
    intro s q hc
    simp only [removeTimes]
    exact List.count_eq_zero.mp (Nat.le_zero.mp hc)
  | succ n ih =>
    intro s q hc
    simp only [removeTimes, RemoveListener_state]
    apply ih
    have := count_eraseSkip_le l s
    omega

theorem run_remove_replicate (l : DataListener) :
    ∀ (n : Nat) (w w1 : World),
      run (List.replicate n (Op.remove l)) w = Outcome.returned w1 →
      w1 = removeTimes l n w := by
  intro n
  induction n with
  | zero =>
    intro w w1 h
    simp only [List.replicate, run] at h
    exact (Outcome.returned.inj h).symm
  | succ n ih =>
    intro w w1 h
    rw [List.replicate_succ] at h
    simp only [run, step] at h
    cases hr : RemoveListener w l with
    | returned w2 =>
      rw [hr] at h
      simp only [removeTimes, hr, Outcome.state]
      exact ih w2 w1 h
    | panicked w2 =>
      rw [hr] at h
      cases h

/-! ## Histories of calls -/

theorem Inv_empty : Inv World.empty := by
  simp [Inv, World.empty]

/-- One call with a non-nil argument on a registry that satisfies the invariant
returns, keeps the invariant, and submits only notifications for listeners that
were registered or are being added. -/
theorem step_inv (w : World) (op : Op) (hw : Inv w) (hop : op.nonNil) :
    ∃ w1 new, step w op = Outcome.returned w1 ∧ Inv w1 ∧ w1.queue = w.queue ++ new ∧
      (∀ x ∈ new, x ∈ w.b.listeners ∨ op = Op.add x) ∧
      (∀ x ∈ w1.b.listeners, x ∈ w.b.listeners ∨ op = Op.add x) := by
  obtain ⟨⟨s⟩, q⟩ := w
  obtain ⟨hnd, hnn⟩ := hw
  simp only at hnd hnn
  cases op with
  | add l =>
    have hl : l ≠ DataListener.nil := hop
    by_cases hmem : l ∈ s
    · refine ⟨⟨⟨s⟩, q⟩, [], AddListener_present s q l hmem, ⟨hnd, hnn⟩, by simp, ?_, ?_⟩
      · intro x hx; exact absurd hx (List.not_mem_nil x)
      · intro x hx; exact Or.inl hx
    · refine ⟨⟨⟨s ++ [l]⟩, q ++ [l]⟩, [l], AddListener_absent s q l hmem hl, ⟨?_, ?_⟩, rfl,
        ?_, ?_⟩
      · exact List.Nodup.append hnd (List.nodup_singleton l)
          (by intro a ha hb; rw [List.mem_singleton.mp hb] at ha; exact hmem ha)
      · intro x hx
        rcases List.mem_append.mp hx with h | h
        · exact hnn x h
        · rw [List.mem_singleton.mp h]; exact hl
      · intro x hx; right; rw [List.mem_singleton.mp hx]
      · intro x hx
        rcases List.mem_append.mp hx with h | h
        · exact Or.inl h
        · right; rw [List.mem_singleton.mp h]
  | remove l =>
    refine ⟨⟨⟨s.erase l⟩, q⟩, [], RemoveListener_nodup s q l hnd, ⟨hnd.erase l, ?_⟩, by simp,
      ?_, ?_⟩
    · intro x hx; exact hnn x (List.mem_of_mem_erase hx)
    · intro x hx; exact absurd hx (List.not_mem_nil x)
    · intro x hx; exact Or.inl (List.mem_of_mem_erase hx)
  | fire =>
    refine ⟨⟨⟨s⟩, q ++ s⟩, s, trigger_nonNil s q hnn, ⟨hnd, hnn⟩, rfl, ?_, ?_⟩
    · intro x hx; exact Or.inl hx
    · intro x hx; exact Or.inl hx

theorem run_inv : ∀ (ops : List Op) (w : World), Inv w → (∀ op ∈ ops, op.nonNil) →
    ∃ w1, run ops w = Outcome.returned w1 ∧ Inv w1 := by
  intro ops
  induction ops with
  | nil => intro w hw _; exact ⟨w, rfl, hw⟩
  | cons op ops ih =>
    intro w hw hops
    obtain ⟨w1, _, hstep, hInv, _, _, _⟩ := step_inv w op hw (hops op (List.mem_cons_self _ _))
    obtain ⟨w2, hrun, hInv2⟩ := ih w1 hInv (fun o ho => hops o (List.mem_cons_of_mem _ ho))
    exact ⟨w2, by simp only [run, hstep, hrun], hInv2⟩

/-- As long as `L` is not added again, a history of calls on a registry that
does not hold `L` submits no notification for `L`. -/
theorem run_avoid (L : DataListener) : ∀ (ops : List Op) (w : World), Inv w →
    L ∉ w.b.listeners → (∀ op ∈ ops, op.nonNil ∧ op ≠ Op.add L) →
    ∃ w1 new, run ops w = Outcome.returned w1 ∧ Inv w1 ∧ L ∉ w1.b.listeners ∧
      w1.queue = w.queue ++ new ∧ L ∉ new := by
  intro ops
  induction ops with
  | nil => intro w hw hL _; exact ⟨w, [], rfl, hw, hL, by simp, List.not_mem_nil L⟩
  | cons op ops ih =>
    intro w hw hL hops
    obtain ⟨hnn, hne⟩ := hops op (List.mem_cons_self _ _)
    obtain ⟨w1, new1, hstep, hInv, hq, hnew, hmem⟩ := step_inv w op hw hnn
    have hL1 : L ∉ w1.b.listeners := by
      intro h
      rcases hmem L h with h1 | h1
      · exact hL h1
      · exact hne h1
    have hLn : L ∉ new1 := by
      intro h
      rcases hnew L h with h1 | h1
      · exact hL h1
      · exact hne h1
    obtain ⟨w2, new2, hrun, hInv2, hL2, hq2, hLn2⟩ :=
      ih w1 hInv hL1 (fun o ho => hops o (List.mem_cons_of_mem _ ho))
    refine ⟨w2, new1 ++ new2, by simp only [run, hstep, hrun], hInv2, hL2, ?_, ?_⟩
    · rw [hq2, hq, List.append_assoc]
    · intro h
      rcases List.mem_append.mp h with h1 | h1
      · exact hLn h1
      · exact hLn2 h1

/-! ## Calls of `trigger` that run at the same time -/

theorem sum_length_set (rest : List DataListener) (x : DataListener) :
    ∀ (pending : List (List DataListener)) (t : Nat), pending[t]? = some (x :: rest) →
      ((pending.set t rest).map List.length).sum + 1 = (pending.map List.length).sum := by
  intro pending
  induction pending with
  | nil => intro t h; simp at h
  | cons p ps ih =>
    intro t h
    cases t with
    | zero =>
      simp only [List.getElem?_cons_zero, Option.some.injEq] at h
      subst h
      simp only [List.set_cons_zero, List.map_cons, List.sum_cons, List.length_cons]
      omega
    | succ t =>
      simp only [List.getElem?_cons_succ] at h
      have := ih t h
      simp only [List.set_cons_succ, List.map_cons, List.sum_cons]
      omega

theorem finished_iff_sum (pending : List (List DataListener)) :
    (∀ p ∈ pending, p = []) ↔ (pending.map List.length).sum = 0 := by
  induction pending with
  | nil => simp
  | cons p ps ih =>
    simp only [List.mem_cons, forall_eq_or_imp, List.map_cons, List.sum_cons, ih]
    constructor
    · rintro ⟨h1, h2⟩
      rw [h1, h2]; rfl
    · intro h
      exact ⟨List.length_eq_zero.mp (by omega), by omega⟩

theorem ConcInv_start (N : Nat) (s q : List DataListener) :
    ConcInv N s q (concStart N ⟨⟨s⟩, q⟩) := by
  refine ⟨rfl, by simp [concStart], by simp [concStart], ?_, ?_⟩
  · simp [concStart, List.sum_const_nat]
  · intro t p h
    simp only [concStart, List.getElem?_replicate] at h
    by_cases ht : t < N
    · rw [if_pos ht] at h
      rw [← Option.some.inj h]
      simp [submittedBy, concStart]
    · rw [if_neg ht] at h
      cases h

theorem ConcInv_step (N : Nat) (s q : List DataListener) (c c1 : ConcState) (t : Nat)
    (hinv : ConcInv N s q c) (hstep : concStep c t = some c1) :
    ConcInv N s q c1 ∧ c1.queue.length = c.queue.length + 1 := by
  obtain ⟨hb, hlen, hq, hsum, hlog⟩ := hinv
  unfold concStep at hstep
  cases hp : c.pending[t]? with
  | none => rw [hp] at hstep; cases hstep
  | some p =>
    rw [hp] at hstep
    cases p with
    | nil => cases hstep
    | cons listen rest =>
      cases hd : DataChanged listen with
      | none => simp only [hd] at hstep; cases hstep
      | some f =>
        simp only [hd, Option.some.injEq] at hstep
        have hf : f = listen := by
          cases listen with
          | nil => simp [DataChanged] at hd
          | ref a => simp only [DataChanged, Option.some.injEq] at hd; exact hd.symm
        subst hf
        subst hstep
        have hsum2 := sum_length_set rest f c.pending t hp
        refine ⟨⟨hb, by simp [hlen], ?_, ?_, ?_⟩, by simp [queueItem]⟩
        · simp only [queueItem, hq, List.map_append, List.map_cons, List.map_nil,
            List.append_assoc]
        · simp only [queueItem, List.length_append, List.length_singleton]
          omega
        · intro t2 p2 h2
          by_cases ht : t = t2
          · subst ht
            have hlt : t < c.pending.length := by
              rcases List.getElem?_eq_some_iff.mp hp with ⟨h, _⟩
              exact h
            rw [List.getElem?_set_self hlt] at h2
            have hp2 : p2 = rest := (Option.some.inj h2).symm
            subst hp2
            have h0 := hlog t (f :: p2) hp
            simp only [submittedBy, List.filter_append, List.map_append] at h0 ⊢
            rw [← h0]
            simp
          · rw [List.getElem?_set_ne ht] at h2
            have h0 := hlog t2 p2 h2
            have hne : ¬ (t = t2) := ht
            simp only [submittedBy, List.filter_append, List.map_append] at h0 ⊢
            rw [← h0]
            simp [hne]

theorem ConcInv_run (N : Nat) (s q : List DataListener) :
    ∀ (sched : List Nat) (c c1 : ConcState), ConcInv N s q c → concRun sched c = some c1 →
      ConcInv N s q c1 ∧ c1.queue.length = c.queue.length + sched.length := by
  intro sched
  induction sched with
  | nil =>
    intro c c1 hinv hrun
    simp only [concRun, Option.some.injEq] at hrun
    subst hrun
    exact ⟨hinv, rfl⟩
  | cons t sched ih =>
    intro c c1 hinv hrun
    simp only [concRun] at hrun
    cases hs : concStep c t with
    | none => rw [hs] at hrun; cases hrun
    | some c2 =>
      rw [hs] at hrun
      obtain ⟨hinv2, hl2⟩ := ConcInv_step N s q c c2 t hinv hs
      obtain ⟨hinv3, hl3⟩ := ih c2 c1 hinv2 hrun
      refine ⟨hinv3, ?_⟩
      rw [hl3, hl2, List.length_cons]
      omega

theorem ConcInv_progress (N : Nat) (s q : List DataListener) (c : ConcState)
    (hs : ∀ x ∈ s, x ≠ DataListener.nil) (hinv : ConcInv N s q c) (hnf : ¬ c.finished) :
    ∃ t c1, concStep c t = some c1 := by
  obtain ⟨_, _, _, _, hlog⟩ := hinv
  unfold ConcState.finished at hnf
  push_neg at hnf
  obtain ⟨p, hp, hne⟩ := hnf
  obtain ⟨t, ht⟩ := List.mem_iff_getElem?.mp hp
  cases p with
  | nil => exact absurd rfl hne
  | cons listen rest =>
    have h0 := hlog t (listen :: rest) ht
    have hmem : listen ∈ s := by
      rw [← h0]; simp
    have hnn := hs listen hmem
    cases listen with
    | nil => exact absurd rfl hnn
    | ref a =>
      refine ⟨t, ⟨c.b, c.pending.set t rest, queueItem c.queue (DataListener.ref a),
        c.log ++ [(t, DataListener.ref a)]⟩, ?_⟩
      unfold concStep
      rw [ht]
      simp only [DataChanged]

theorem concRun_append : ∀ (s1 s2 : List Nat) (c c1 : ConcState),
    concRun s1 c = some c1 → concRun (s1 ++ s2) c = concRun s2 c1 := by
  intro s1
  induction s1 with
  | nil =>
    intro s2 c c1 h
    simp only [concRun, Option.some.injEq] at h
    subst h
    rfl
  | cons t s1 ih =>
    intro s2 c c1 h
    simp only [concRun, List.cons_append] at h ⊢
    cases hs : concStep c t with
    | none => rw [hs] at h; cases h
    | some c2 =>
      rw [hs] at h
      simp only [hs]
      exact ih s2 c2 c1 h

theorem ConcInv_complete (N : Nat) (s q : List DataListener)
    (hs : ∀ x ∈ s, x ≠ DataListener.nil) :
    ∀ (k : Nat) (c : ConcState), ConcInv N s q c → (c.pending.map List.length).sum = k →
      ∃ sched c1, concRun sched c = some c1 ∧ c1.finished := by
  intro k
  induction k with
  | zero =>
    intro c _ hsum
    exact ⟨[], c, rfl, (finished_iff_sum c.pending).mpr hsum⟩
  | succ k ih =>
    intro c hinv hsum
    have hnf : ¬ c.finished := by
      intro hf
      have := (finished_iff_sum c.pending).mp hf
      omega
    obtain ⟨t, c1, hstep⟩ := ConcInv_progress N s q c hs hinv hnf
    obtain ⟨hinv1, hlen1⟩ := ConcInv_step N s q c c1 t hinv hstep
    have h4 := hinv.2.2.2.1
    have h4' := hinv1.2.2.2.1
    obtain ⟨sched, c2, hrun, hfin⟩ := ih c1 hinv1 (by omega)
    exact ⟨t :: sched, c2, by simp only [concRun, hstep, hrun], hfin⟩

/-! ## The claims -/

/-- C1: adding a non-nil listener `l` that is not registered yet appends `l` at
the end of the listener sequence, leaving the earlier listeners as they were,
and submits exactly one notification, for `l`. -/
theorem C1_AddListener_appends (s q : List DataListener) (l : DataListener)
    (hl : l ≠ DataListener.nil) (hs : l ∉ s) :
    AddListener ⟨⟨s⟩, q⟩ l = Outcome.returned ⟨⟨s ++ [l]⟩, q ++ [l]⟩ :=
  AddListener_absent s q l hs hl

theorem C1_AddListener_appends_witness :
    DataListener.ref 2 ≠ DataListener.nil ∧ DataListener.ref 2 ∉ [DataListener.ref 1] ∧
    AddListener ⟨⟨[DataListener.ref 1]⟩, [DataListener.ref 1]⟩ (DataListener.ref 2)
      = Outcome.returned ⟨⟨[DataListener.ref 1, DataListener.ref 2]⟩,
          [DataListener.ref 1, DataListener.ref 2]⟩ :=
  ⟨by decide, by decide,
    C1_AddListener_appends [DataListener.ref 1] [DataListener.ref 1] (DataListener.ref 2)
      (by decide) (by decide)⟩

/-- C2: on a registry of non-nil listeners `trigger` returns, leaves the
listener sequence unchanged and submits one notification per listener in
registry order, so the queue grows from `q` to `q ++ s`. In particular, after
distinct listeners `L1`, `L2`, `L3` are added in that order to the empty
registry, one `trigger` submits `L1`, `L2`, `L3` in that order. -/
theorem C2_trigger_in_order (s q : List DataListener) (L1 L2 L3 : DataListener)
    (hs : ∀ x ∈ s, x ≠ DataListener.nil)
    (h1 : L1 ≠ DataListener.nil) (h2 : L2 ≠ DataListener.nil) (h3 : L3 ≠ DataListener.nil)
    (h12 : L1 ≠ L2) (h13 : L1 ≠ L3) (h23 : L2 ≠ L3) :
    trigger ⟨⟨s⟩, q⟩ = Outcome.returned ⟨⟨s⟩, q ++ s⟩ ∧
    run [Op.add L1, Op.add L2, Op.add L3] World.empty
      = Outcome.returned ⟨⟨[L1, L2, L3]⟩, [L1, L2, L3]⟩ ∧
    trigger ⟨⟨[L1, L2, L3]⟩, [L1, L2, L3]⟩
      = Outcome.returned ⟨⟨[L1, L2, L3]⟩, [L1, L2, L3] ++ [L1, L2, L3]⟩ := by
  refine ⟨trigger_nonNil s q hs, ?_, ?_⟩
  · have a1 := AddListener_absent [] [] L1 (List.not_mem_nil L1) h1
    have a2 := AddListener_absent [L1] [L1] L2
      (by intro h; exact h12 (List.mem_singleton.mp h).symm) h2
    have a3 := AddListener_absent [L1, L2] [L1, L2] L3
      (by intro h
          rcases List.mem_cons.mp h with h | h
          · exact h13 h.symm
          · exact h23 (List.mem_singleton.mp h).symm) h3
    simp only [List.nil_append, List.singleton_append, List.cons_append] at a1 a2 a3
    simp only [run, step, World.empty, a1, a2, a3]
  · apply trigger_nonNil
    intro x hx
    simp only [List.mem_cons, List.mem_singleton, List.not_mem_nil, or_false] at hx
    rcases hx with h | h | h <;> rw [h] <;> assumption

theorem C2_trigger_in_order_witness :
    trigger ⟨⟨[DataListener.ref 7, DataListener.ref 5]⟩, [DataListener.ref 9]⟩
      = Outcome.returned ⟨⟨[DataListener.ref 7, DataListener.ref 5]⟩,
          [DataListener.ref 9, DataListener.ref 7, DataListener.ref 5]⟩ ∧
    run [Op.add (DataListener.ref 1), Op.add (DataListener.ref 2), Op.add (DataListener.ref 3)]
        World.empty
      = Outcome.returned ⟨⟨[DataListener.ref 1, DataListener.ref 2, DataListener.ref 3]⟩,
          [DataListener.ref 1, DataListener.ref 2, DataListener.ref 3]⟩ ∧
    trigger ⟨⟨[DataListener.ref 1, DataListener.ref 2, DataListener.ref 3]⟩,
        [DataListener.ref 1, DataListener.ref 2, DataListener.ref 3]⟩
      = Outcome.returned ⟨⟨[DataListener.ref 1, DataListener.ref 2, DataListener.ref 3]⟩,
          [DataListener.ref 1, DataListener.ref 2, DataListener.ref 3,
            DataListener.ref 1, DataListener.ref 2, DataListener.ref 3]⟩ :=
  C2_trigger_in_order [DataListener.ref 7, DataListener.ref 5] [DataListener.ref 9]
    (DataListener.ref 1) (DataListener.ref 2) (DataListener.ref 3)
    (by decide) (by decide) (by decide) (by decide) (by decide) (by decide) (by decide)

/-- C3: on a duplicate-free listener sequence `s`, `RemoveListener(l)` returns
(the loop over the original length never reaches an out-of-range slice
expression) and leaves `s` with its single occurrence of `l` erased: `l` is
gone, every other listener is still there, the order is kept, and the length
drops by one when `l` was present. -/
theorem C3_RemoveListener_nodup (s q : List DataListener) (l : DataListener)
    (hs : s.Nodup) :
    RemoveListener ⟨⟨s⟩, q⟩ l = Outcome.returned ⟨⟨s.erase l⟩, q⟩ ∧
    s.erase l = s.filter (fun x => decide (x ≠ l)) ∧
    l ∉ s.erase l ∧
    (∀ x, x ≠ l → (x ∈ s.erase l ↔ x ∈ s)) ∧
    (s.erase l).Sublist s ∧
    (l ∈ s → (s.erase l).length + 1 = s.length) := by
  refine ⟨RemoveListener_nodup s q l hs, ?_, ?_, ?_, List.erase_sublist l s, ?_⟩
  · rw [hs.erase_eq_filter]
    congr 1
    funext x
    by_cases hx : x = l <;> simp [hx]
  · exact hs.not_mem_erase
  · intro x hx
    exact List.mem_erase_of_ne hx
  · intro hmem
    rw [List.length_erase_of_mem hmem]
    have : 0 < s.length := List.length_pos_of_mem hmem
    omega

theorem C3_RemoveListener_nodup_witness :
    [DataListener.ref 1, DataListener.ref 2, DataListener.ref 3].Nodup ∧
    RemoveListener ⟨⟨[DataListener.ref 1, DataListener.ref 2, DataListener.ref 3]⟩, []⟩
        (DataListener.ref 2)
      = Outcome.returned ⟨⟨[DataListener.ref 1, DataListener.ref 3]⟩, []⟩ :=
  ⟨by decide,
    (C3_RemoveListener_nodup [DataListener.ref 1, DataListener.ref 2, DataListener.ref 3] []
      (DataListener.ref 2) (by decide)).1⟩

/-- C4 (counterexample): when `l` is already registered, `AddListener(l)`
returns from its scan before it submits anything. On the registry `[A]` with
an empty queue the queue stays empty, and two calls in a row on the empty
registry submit one notification for `A`, not two. -/
theorem C4_counterexample :
    AddListener ⟨⟨[DataListener.ref 1]⟩, []⟩ (DataListener.ref 1)
      = Outcome.returned ⟨⟨[DataListener.ref 1]⟩, []⟩ ∧
    run [Op.add (DataListener.ref 1), Op.add (DataListener.ref 1)] World.empty
      = Outcome.returned ⟨⟨[DataListener.ref 1]⟩, [DataListener.ref 1]⟩ ∧
    [DataListener.ref 1] ≠ [DataListener.ref 1, DataListener.ref 1] := by
  decide

/-- C4 (amended): for a non-nil listener `l`, `AddListener(l)` submits exactly
one notification for `l` when `l` is registered for the first time, and submits
nothing and changes nothing when `l` is already present; so two calls in a row
submit one notification in total when `l` was absent before and none when it
was present. -/
theorem C4_AddListener_notifies_once (s q : List DataListener) (l : DataListener)
    (hl : l ≠ DataListener.nil) :
    AddListener ⟨⟨s⟩, q⟩ l =
      (if l ∈ s then Outcome.returned ⟨⟨s⟩, q⟩
       else Outcome.returned ⟨⟨s ++ [l]⟩, q ++ [l]⟩) ∧
    run [Op.add l, Op.add l] ⟨⟨s⟩, q⟩ =
      (if l ∈ s then Outcome.returned ⟨⟨s⟩, q⟩
       else Outcome.returned ⟨⟨s ++ [l]⟩, q ++ [l]⟩) := by
  by_cases hmem : l ∈ s
  · have a1 := AddListener_present s q l hmem
    simp only [if_pos hmem, run, step, a1, and_self]
  · have a1 := AddListener_absent s q l hmem hl
    have a2 := AddListener_present (s ++ [l]) (q ++ [l]) l (by simp)
    simp only [if_neg hmem, run, step, a1, a2, and_self]

theorem C4_AddListener_notifies_once_witness :
    DataListener.ref 2 ≠ DataListener.nil ∧
    run [Op.add (DataListener.ref 2), Op.add (DataListener.ref 2)]
        ⟨⟨[DataListener.ref 1]⟩, [DataListener.ref 1]⟩
      = Outcome.returned ⟨⟨[DataListener.ref 1, DataListener.ref 2]⟩,
          [DataListener.ref 1, DataListener.ref 2]⟩ :=
  ⟨by decide,
    (C4_AddListener_notifies_once [DataListener.ref 1] [DataListener.ref 1]
      (DataListener.ref 2) (by decide)).2⟩

/-- C5: on a duplicate-free listener sequence, calling `AddListener(l)` twice
with a non-nil `l` leaves the same listener sequence as calling it once; `l`
occurs in it exactly once, and the second call does not change its size. -/
theorem C5_AddListener_idempotent (s q : List DataListener) (l : DataListener)
    (hs : s.Nodup) (hl : l ≠ DataListener.nil) :
    ∃ w1 w2, AddListener ⟨⟨s⟩, q⟩ l = Outcome.returned w1 ∧
      AddListener w1 l = Outcome.returned w2 ∧
      w2.b.listeners = w1.b.listeners ∧
      w1.b.listeners.count l = 1 ∧ w2.b.listeners.count l = 1 ∧
      w2.b.listeners.length = w1.b.listeners.length := by
  by_cases hmem : l ∈ s
  · have a1 := AddListener_present s q l hmem
    have hc : s.count l = 1 := List.count_eq_one_of_mem hs hmem
    exact ⟨⟨⟨s⟩, q⟩, ⟨⟨s⟩, q⟩, a1, a1, rfl, hc, hc, rfl⟩
  · have a1 := AddListener_absent s q l hmem hl
    have a2 := AddListener_present (s ++ [l]) (q ++ [l]) l (by simp)
    have hc : (s ++ [l]).count l = 1 := by
      rw [List.count_append, List.count_eq_zero_of_not_mem hmem]
      simp
    exact ⟨⟨⟨s ++ [l]⟩, q ++ [l]⟩, ⟨⟨s ++ [l]⟩, q ++ [l]⟩, a1, a2, rfl, hc, hc, rfl⟩

theorem C5_AddListener_idempotent_witness :
    [DataListener.ref 1, DataListener.ref 2].Nodup ∧ DataListener.ref 3 ≠ DataListener.nil ∧
    ∃ w1 w2, AddListener ⟨⟨[DataListener.ref 1, DataListener.ref 2]⟩, []⟩ (DataListener.ref 3)
        = Outcome.returned w1 ∧
      AddListener w1 (DataListener.ref 3) = Outcome.returned w2 ∧
      w2.b.listeners = w1.b.listeners ∧
      w1.b.listeners.count (DataListener.ref 3) = 1 ∧
      w2.b.listeners.count (DataListener.ref 3) = 1 ∧
      w2.b.listeners.length = w1.b.listeners.length :=
  ⟨by decide, by decide,
    C5_AddListener_idempotent [DataListener.ref 1, DataListener.ref 2] [] (DataListener.ref 3)
      (by decide) (by decide)⟩

/-- C6: take a registry reached from the empty one by calls with non-nil
listeners, and a listener `L`. `RemoveListener(L)` returns, and whatever calls
follow, as long as none of them is `AddListener(L)`, they all return and the
notifications submitted after the removal contain none for `L`: every `trigger`
in that stretch, and one more at its end, submits nothing for `L`. -/
theorem C6_removed_not_notified (ops mid : List Op) (w : World) (L : DataListener)
    (hops : ∀ op ∈ ops, op.nonNil)
    (hrun : run ops World.empty = Outcome.returned w)
    (hmid : ∀ op ∈ mid, op.nonNil ∧ op ≠ Op.add L) :
    ∃ w1 w2 new, RemoveListener w L = Outcome.returned w1 ∧
      run mid w1 = Outcome.returned w2 ∧
      w2.queue = w1.queue ++ new ∧ L ∉ new ∧
      L ∉ w2.b.listeners ∧
      trigger w2 = Outcome.returned ⟨w2.b, w2.queue ++ w2.b.listeners⟩ := by
  obtain ⟨w0, hrun0, hInv⟩ := run_inv ops World.empty Inv_empty hops
  rw [hrun] at hrun0
  have hw : w = w0 := Outcome.returned.inj hrun0
  subst hw
  obtain ⟨⟨s⟩, q⟩ := w
  obtain ⟨hnd, hnn⟩ := hInv
  simp only at hnd hnn
  have hInv1 : Inv ⟨⟨s.erase L⟩, q⟩ :=
    ⟨hnd.erase L, fun x hx => hnn x (List.mem_of_mem_erase hx)⟩
  obtain ⟨w2, new, hrun2, hInv2, hL2, hq2, hnew⟩ :=
    run_avoid L mid ⟨⟨s.erase L⟩, q⟩ hInv1 hnd.not_mem_erase hmid
  refine ⟨⟨⟨s.erase L⟩, q⟩, w2, new, RemoveListener_nodup s q L hnd, hrun2, hq2, hnew, hL2, ?_⟩
  obtain ⟨⟨s2⟩, q2⟩ := w2
  exact trigger_nonNil s2 q2 hInv2.2

theorem C6_removed_not_notified_witness :
    ∃ w1 w2 new,
      RemoveListener ⟨⟨[DataListener.ref 1, DataListener.ref 2]⟩,
          [DataListener.ref 1, DataListener.ref 2, DataListener.ref 1, DataListener.ref 2]⟩
          (DataListener.ref 1) = Outcome.returned w1 ∧
      run [Op.fire, Op.add (DataListener.ref 3), Op.remove (DataListener.ref 2), Op.fire] w1
        = Outcome.returned w2 ∧
      w2.queue = w1.queue ++ new ∧ DataListener.ref 1 ∉ new ∧
      DataListener.ref 1 ∉ w2.b.listeners ∧
      trigger w2 = Outcome.returned ⟨w2.b, w2.queue ++ w2.b.listeners⟩ :=
  C6_removed_not_notified
    [Op.add (DataListener.ref 1), Op.add (DataListener.ref 2), Op.fire]
    [Op.fire, Op.add (DataListener.ref 3), Op.remove (DataListener.ref 2), Op.fire]
    ⟨⟨[DataListener.ref 1, DataListener.ref 2]⟩,
      [DataListener.ref 1, DataListener.ref 2, DataListener.ref 1, DataListener.ref 2]⟩
    (DataListener.ref 1) (by decide) (by decide) (by decide)

/-- C7: when `l` does not occur in the listener sequence `s`, with or without
duplicates in `s`, `RemoveListener(l)` returns and leaves the sequence exactly
`s`: same size, same elements, same order. -/
theorem C7_RemoveListener_absent_noop (s q : List DataListener) (l : DataListener)
    (h : l ∉ s) :
    RemoveListener ⟨⟨s⟩, q⟩ l = Outcome.returned ⟨⟨s⟩, q⟩ :=
  RemoveListener_absent s q l h

theorem C7_RemoveListener_absent_noop_witness :
    DataListener.ref 3 ∉ [DataListener.ref 1, DataListener.ref 1, DataListener.ref 2] ∧
    RemoveListener ⟨⟨[DataListener.ref 1, DataListener.ref 1, DataListener.ref 2]⟩, []⟩
        (DataListener.ref 3)
      = Outcome.returned ⟨⟨[DataListener.ref 1, DataListener.ref 1, DataListener.ref 2]⟩, []⟩ :=
  ⟨by decide,
    C7_RemoveListener_absent_noop [DataListener.ref 1, DataListener.ref 1, DataListener.ref 2]
      [] (DataListener.ref 3) (by decide)⟩

/-- C8: every history of `AddListener`, `RemoveListener` and `trigger` calls
with non-nil listeners, started on the empty registry, returns and ends in a
registry in which no listener occurs twice; and each of the three operations,
on any duplicate-free registry and with any argument, leaves a duplicate-free
registry behind. -/
theorem C8_no_duplicates (ops : List Op) (hops : ∀ op ∈ ops, op.nonNil) :
    (∃ w, run ops World.empty = Outcome.returned w ∧ w.b.listeners.Nodup) ∧
    (∀ (w : World) (op : Op), w.b.listeners.Nodup →
      (step w op).state.b.listeners.Nodup) := by
  constructor
  · obtain ⟨w, hrun, hInv⟩ := run_inv ops World.empty Inv_empty hops
    exact ⟨w, hrun, hInv.1⟩
  · intro w op hnd
    obtain ⟨⟨s⟩, q⟩ := w
    simp only at hnd
    cases op with
    | add l =>
      by_cases hmem : l ∈ s
      · simp only [step, AddListener_present s q l hmem, Outcome.state]
        exact hnd
      · have hnd2 : (s ++ [l]).Nodup :=
          List.Nodup.append hnd (List.nodup_singleton l)
            (by intro a ha hb; rw [List.mem_singleton.mp hb] at ha; exact hmem ha)
        by_cases hl : l = DataListener.nil
        · subst hl
          simp only [step, AddListener_nil_absent s q hmem, Outcome.state]
          exact hnd2
        · simp only [step, AddListener_absent s q l hmem hl, Outcome.state]
          exact hnd2
    | remove l =>
      simp only [step, RemoveListener_nodup s q l hnd, Outcome.state]
      exact hnd.erase l
    | fire =>
      simp only [step, trigger_state_b]
      exact hnd

theorem C8_no_duplicates_witness :
    (∃ w, run [Op.add (DataListener.ref 1), Op.add (DataListener.ref 2),
          Op.add (DataListener.ref 1), Op.fire, Op.remove (DataListener.ref 1),
          Op.add (DataListener.ref 2)] World.empty = Outcome.returned w ∧
        w.b.listeners.Nodup) ∧
    (step ⟨⟨[DataListener.ref 1, DataListener.ref 2]⟩, []⟩
        (Op.add (DataListener.ref 2))).state.b.listeners.Nodup :=
  ⟨(C8_no_duplicates [Op.add (DataListener.ref 1), Op.add (DataListener.ref 2),
      Op.add (DataListener.ref 1), Op.fire, Op.remove (DataListener.ref 1),
      Op.add (DataListener.ref 2)] (by decide)).1,
    (C8_no_duplicates [] (by decide)).2 ⟨⟨[DataListener.ref 1, DataListener.ref 2]⟩, []⟩
      (Op.add (DataListener.ref 2)) (by decide)⟩

/-- C9 (counterexample): on the listener sequence `[A, A, B]`
one `RemoveListener(A)` returns `[A, B]`. The shift moves the second `A` under
the index that was just visited, so the loop never compares it, and `A` is
still registered after the call. -/
theorem C9_adjacent_duplicate_survives :
    RemoveListener ⟨⟨[DataListener.ref 1, DataListener.ref 1, DataListener.ref 2]⟩, []⟩
        (DataListener.ref 1)
      = Outcome.returned ⟨⟨[DataListener.ref 1, DataListener.ref 2]⟩, []⟩ ∧
    DataListener.ref 1 ∈ [DataListener.ref 1, DataListener.ref 2] := by
  decide

/-- C9 (amended): let no two occurrences of `l` stand next to each other in
the listener sequence, and let `l` not be its last element if `l` occurs more
than once (manually inserted duplicates of `l` are allowed otherwise). Then a
single `RemoveListener(l)` call returns and removes all occurrences of `l` in
one pass: what is left is the sequence without `l`, the other listeners in
their order. For no other sequence does the call return with `l` gone. -/
theorem C9_RemoveListener_removes_all (s q : List DataListener) (l : DataListener) :
    (adjacentPair l s = false ∧ (s.getLast? = some l → s.count l ≤ 1) →
      RemoveListener ⟨⟨s⟩, q⟩ l
          = Outcome.returned ⟨⟨s.filter (fun x => decide (x ≠ l))⟩, q⟩ ∧
        l ∉ s.filter (fun x => decide (x ≠ l))) ∧
    ((∃ w1, RemoveListener ⟨⟨s⟩, q⟩ l = Outcome.returned w1 ∧ l ∉ w1.b.listeners) →
      adjacentPair l s = false ∧ (s.getLast? = some l → s.count l ≤ 1)) := by
  constructor
  · rintro ⟨hadj, hlast⟩
    have hc : ¬ (s.getLast? = some l ∧ 0 < shiftCount l s) := by
      rintro ⟨h1, h2⟩
      have := count_of_shift_last l s.length s (le_refl _) h2 h1
      have := hlast h1
      omega
    rw [RemoveListener_eq, if_neg hc, eraseSkip_filter l s.length s (le_refl _) hadj]
    exact ⟨rfl, by simp⟩
  · rintro ⟨w1, hret, hnot⟩
    rw [RemoveListener_eq] at hret
    by_cases hc : s.getLast? = some l ∧ 0 < shiftCount l s
    · rw [if_pos hc] at hret; cases hret
    · rw [if_neg hc] at hret
      have hw : w1 = ⟨⟨eraseSkip l s⟩, q⟩ := (Outcome.returned.inj hret).symm
      subst hw
      constructor
      · cases hadj : adjacentPair l s with
        | false => rfl
        | true => exact absurd (mem_eraseSkip_of_adjacent l s.length s (le_refl _) hadj) hnot
      · intro hlast
        by_contra hcount
        exact hc ⟨hlast, shiftCount_pos_of_count l s.length s (le_refl _) (by omega)⟩

theorem C9_RemoveListener_removes_all_witness :
    (adjacentPair (DataListener.ref 1)
        [DataListener.ref 1, DataListener.ref 2, DataListener.ref 1, DataListener.ref 3] = false ∧
      ([DataListener.ref 1, DataListener.ref 2, DataListener.ref 1,
          DataListener.ref 3].getLast? = some (DataListener.ref 1) →
        [DataListener.ref 1, DataListener.ref 2, DataListener.ref 1,
          DataListener.ref 3].count (DataListener.ref 1) ≤ 1)) ∧
    RemoveListener ⟨⟨[DataListener.ref 1, DataListener.ref 2, DataListener.ref 1,
          DataListener.ref 3]⟩, []⟩ (DataListener.ref 1)
      = Outcome.returned ⟨⟨[DataListener.ref 1, DataListener.ref 2, DataListener.ref 1,
          DataListener.ref 3].filter (fun x => decide (x ≠ DataListener.ref 1))⟩, []⟩ :=
  ⟨by decide,
    ((C9_RemoveListener_removes_all
      [DataListener.ref 1, DataListener.ref 2, DataListener.ref 1, DataListener.ref 3] []
      (DataListener.ref 1)).1 (by decide)).1⟩

/-- C10 (counterexample): on the listener sequence `[A, B, A, C]` one
`RemoveListener(A)` removes both occurrences of `A` and leaves `[B, C]`, not
the sequence `[B, A, C]` that lacks the first occurrence only; one call purges
`A` although it occurred twice. -/
theorem C10_counterexample :
    RemoveListener ⟨⟨[DataListener.ref 1, DataListener.ref 2, DataListener.ref 1,
          DataListener.ref 3]⟩, []⟩ (DataListener.ref 1)
      = Outcome.returned ⟨⟨[DataListener.ref 2, DataListener.ref 3]⟩, []⟩ ∧
    [DataListener.ref 1, DataListener.ref 2, DataListener.ref 1, DataListener.ref 3].erase
        (DataListener.ref 1)
      = [DataListener.ref 2, DataListener.ref 1, DataListener.ref 3] ∧
    [DataListener.ref 2, DataListener.ref 3]
      ≠ [DataListener.ref 2, DataListener.ref 1, DataListener.ref 3] := by
  decide

/-- C10 (amended): when `l` occurs in the listener sequence `s`, once or more
than once, a single `RemoveListener(l)` call removes the first occurrence of
`l` and leaves every listener other than `l` in place and in order; this holds
for the state the call leaves behind however it ends, and the call returns
whenever the last listener is not `l`. The loop keeps scanning after the first
match, so later occurrences of `l` may be removed by the same call as well.
Every call lowers the number of occurrences of `l` by at least one, so as many
calls as there are occurrences always purge `l`, and fewer may do. -/
theorem C10_RemoveListener_duplicates (s q : List DataListener) (l : DataListener)
    (hmem : l ∈ s) :
    (RemoveListener ⟨⟨s⟩, q⟩ l).state.b.listeners.Sublist (s.erase l) ∧
    (RemoveListener ⟨⟨s⟩, q⟩ l).state.b.listeners.filter (fun x => decide (x ≠ l))
      = s.filter (fun x => decide (x ≠ l)) ∧
    (RemoveListener ⟨⟨s⟩, q⟩ l).state.b.listeners.count l < s.count l ∧
    (RemoveListener ⟨⟨s⟩, q⟩ l).state.queue = q ∧
    (s.getLast? ≠ some l →
      RemoveListener ⟨⟨s⟩, q⟩ l = Outcome.returned (RemoveListener ⟨⟨s⟩, q⟩ l).state) ∧
    l ∉ (removeTimes l (s.count l) ⟨⟨s⟩, q⟩).b.listeners ∧
    (∀ w1, run (List.replicate (s.count l) (Op.remove l)) ⟨⟨s⟩, q⟩ = Outcome.returned w1 →
      l ∉ w1.b.listeners) := by
  obtain ⟨h1, _, h3⟩ := eraseSkip_sublist l s.length s (le_refl _)
  have hst := RemoveListener_state s q l
  have hpos : 0 < s.count l := List.count_pos_iff.mpr hmem
  have hle := count_eraseSkip_le l s
  have hpurge := removeTimes_purges l (s.count l) s q (le_refl _)
  refine ⟨by rw [hst]; exact h1, by rw [hst]; exact h3, by rw [hst]; simp only; omega,
    by rw [hst], ?_, hpurge, ?_⟩
  · intro hlast
    rw [hst, RemoveListener_eq]
    have hc : ¬ (s.getLast? = some l ∧ 0 < shiftCount l s) := fun h => hlast h.1
    rw [if_neg hc]
  · intro w1 hrun
    rw [run_remove_replicate l (s.count l) ⟨⟨s⟩, q⟩ w1 hrun]
    exact hpurge

theorem C10_RemoveListener_duplicates_witness :
    DataListener.ref 1 ∈
      [DataListener.ref 1, DataListener.ref 1, DataListener.ref 1, DataListener.ref 2] ∧
    (RemoveListener ⟨⟨[DataListener.ref 1, DataListener.ref 1, DataListener.ref 1,
        DataListener.ref 2]⟩, []⟩ (DataListener.ref 1)).state.b.listeners.count
        (DataListener.ref 1)
      < [DataListener.ref 1, DataListener.ref 1, DataListener.ref 1,
          DataListener.ref 2].count (DataListener.ref 1) ∧
    DataListener.ref 1 ∉ (removeTimes (DataListener.ref 1)
      ([DataListener.ref 1, DataListener.ref 1, DataListener.ref 1,
          DataListener.ref 2].count (DataListener.ref 1))
      ⟨⟨[DataListener.ref 1, DataListener.ref 1, DataListener.ref 1,
          DataListener.ref 2]⟩, []⟩).b.listeners :=
  ⟨by decide,
    (C10_RemoveListener_duplicates
      [DataListener.ref 1, DataListener.ref 1, DataListener.ref 1, DataListener.ref 2] []
      (DataListener.ref 1) (by decide)).2.2.1,
    (C10_RemoveListener_duplicates
      [DataListener.ref 1, DataListener.ref 1, DataListener.ref 1, DataListener.ref 2] []
      (DataListener.ref 1) (by decide)).2.2.2.2.2.1⟩

/-- C11: `RemoveListener` submits no notification. Whatever the registry and
whatever the listener, present or absent, and however the call ends, the list
of submitted notifications after the call is the list before it. -/
theorem C11_RemoveListener_submits_nothing (w : World) (l : DataListener) :
    (RemoveListener w l).state.queue = w.queue ∧
    (∀ w1, RemoveListener w l = Outcome.returned w1 → w1.queue = w.queue) := by
  obtain ⟨⟨s⟩, q⟩ := w
  have hst := RemoveListener_state s q l
  refine ⟨by rw [hst], ?_⟩
  intro w1 hret
  rw [hret] at hst
  simp only [Outcome.state] at hst
  rw [hst]

theorem C11_RemoveListener_submits_nothing_witness :
    (RemoveListener ⟨⟨[DataListener.ref 1, DataListener.ref 2]⟩, [DataListener.ref 1]⟩
        (DataListener.ref 1)).state.queue = [DataListener.ref 1] ∧
    (⟨⟨[DataListener.ref 2]⟩, [DataListener.ref 1]⟩ : World).queue = [DataListener.ref 1] :=
  ⟨(C11_RemoveListener_submits_nothing
      ⟨⟨[DataListener.ref 1, DataListener.ref 2]⟩, [DataListener.ref 1]⟩ (DataListener.ref 1)).1,
    (C11_RemoveListener_submits_nothing
      ⟨⟨[DataListener.ref 1, DataListener.ref 2]⟩, [DataListener.ref 1]⟩ (DataListener.ref 1)).2
      ⟨⟨[DataListener.ref 2]⟩, [DataListener.ref 1]⟩ (by decide)⟩

/-- C12: the scenario, for distinct non-nil listeners `A` and `B`, from the
empty registry with no submissions. `AddListener(A)` gives submissions `[A]`;
`AddListener(B)` gives `[A, B]`; `trigger()` gives `[A, B, A, B]`; then
`RemoveListener(A)` leaves the registry `[B]` and submits nothing, and a second
`trigger()` gives `[A, B, A, B, B]`, five submissions in total. -/
theorem C12_scenario (A B : DataListener)
    (hA : A ≠ DataListener.nil) (hB : B ≠ DataListener.nil) (hAB : A ≠ B) :
    AddListener World.empty A = Outcome.returned ⟨⟨[A]⟩, [A]⟩ ∧
    AddListener ⟨⟨[A]⟩, [A]⟩ B = Outcome.returned ⟨⟨[A, B]⟩, [A, B]⟩ ∧
    trigger ⟨⟨[A, B]⟩, [A, B]⟩ = Outcome.returned ⟨⟨[A, B]⟩, [A, B, A, B]⟩ ∧
    RemoveListener ⟨⟨[A, B]⟩, [A, B, A, B]⟩ A = Outcome.returned ⟨⟨[B]⟩, [A, B, A, B]⟩ ∧
    trigger ⟨⟨[B]⟩, [A, B, A, B]⟩ = Outcome.returned ⟨⟨[B]⟩, [A, B, A, B, B]⟩ ∧
    run [Op.add A, Op.add B, Op.fire, Op.remove A, Op.fire] World.empty
      = Outcome.returned ⟨⟨[B]⟩, [A, B, A, B, B]⟩ ∧
    [A, B, A, B, B].length = 5 := by
  have a1 : AddListener World.empty A = Outcome.returned ⟨⟨[A]⟩, [A]⟩ :=
    AddListener_absent [] [] A (List.not_mem_nil A) hA
  have a2 : AddListener ⟨⟨[A]⟩, [A]⟩ B = Outcome.returned ⟨⟨[A, B]⟩, [A, B]⟩ :=
    AddListener_absent [A] [A] B (by intro h; exact hAB (List.mem_singleton.mp h).symm) hB
  have hnn : ∀ x ∈ [A, B], x ≠ DataListener.nil := by
    intro x hx
    simp only [List.mem_cons, List.mem_singleton, List.not_mem_nil, or_false] at hx
    rcases hx with h | h <;> rw [h] <;> assumption
  have a3 : trigger ⟨⟨[A, B]⟩, [A, B]⟩ = Outcome.returned ⟨⟨[A, B]⟩, [A, B, A, B]⟩ :=
    trigger_nonNil [A, B] [A, B] hnn
  have hnd : [A, B].Nodup := by simp [hAB]
  have a4 : RemoveListener ⟨⟨[A, B]⟩, [A, B, A, B]⟩ A
      = Outcome.returned ⟨⟨[B]⟩, [A, B, A, B]⟩ := by
    rw [RemoveListener_nodup [A, B] [A, B, A, B] A hnd, List.erase_cons_head]
  have a5 : trigger ⟨⟨[B]⟩, [A, B, A, B]⟩ = Outcome.returned ⟨⟨[B]⟩, [A, B, A, B, B]⟩ :=
    trigger_nonNil [B] [A, B, A, B]
      (by intro x hx; rw [List.mem_singleton.mp hx]; exact hB)
  refine ⟨a1, a2, a3, a4, a5, ?_, rfl⟩
  simp only [run, step, a1, a2, a3, a4, a5]

theorem C12_scenario_witness :
    run [Op.add (DataListener.ref 1), Op.add (DataListener.ref 2), Op.fire,
        Op.remove (DataListener.ref 1), Op.fire] World.empty
      = Outcome.returned ⟨⟨[DataListener.ref 2]⟩,
          [DataListener.ref 1, DataListener.ref 2, DataListener.ref 1, DataListener.ref 2,
            DataListener.ref 2]⟩ :=
  (C12_scenario (DataListener.ref 1) (DataListener.ref 2)
    (by decide) (by decide) (by decide)).2.2.2.2.2.1

/-- C13: every call of `NewDataListener` gives a listener of its own identity,
also when two calls wrap the same callback. For callbacks `fn` and `gn`, equal
or not, and whatever is allocated between the two calls, the two listeners are
non-nil and compare unequal; added to the empty registry in turn they are two
subscriptions: the registry has size 2 and one notification is submitted for
each. -/
theorem C13_NewDataListener_distinct (h : Heap) (fn gn : Callback) (between : List listener) :
    (NewDataListener h fn).1 ≠
      (NewDataListener ⟨(NewDataListener h fn).2.objects ++ between⟩ gn).1 ∧
    (NewDataListener h fn).1 ≠ (NewDataListener (NewDataListener h fn).2 fn).1 ∧
    (NewDataListener h fn).1 ≠ DataListener.nil ∧
    run [Op.add (NewDataListener h fn).1,
          Op.add (NewDataListener (NewDataListener h fn).2 fn).1] World.empty
      = Outcome.returned
          ⟨⟨[(NewDataListener h fn).1, (NewDataListener (NewDataListener h fn).2 fn).1]⟩,
            [(NewDataListener h fn).1, (NewDataListener (NewDataListener h fn).2 fn).1]⟩ ∧
    [(NewDataListener h fn).1, (NewDataListener (NewDataListener h fn).2 fn).1].length = 2 := by
  have hne : (NewDataListener h fn).1 ≠ (NewDataListener (NewDataListener h fn).2 fn).1 := by
    simp [NewDataListener]
  have hnil : (NewDataListener h fn).1 ≠ DataListener.nil := by
    simp [NewDataListener]
  have hnil2 : (NewDataListener (NewDataListener h fn).2 fn).1 ≠ DataListener.nil := by
    simp [NewDataListener]
  refine ⟨?_, hne, hnil, ?_, rfl⟩
  · simp only [NewDataListener, List.length_append, List.length_singleton, ne_eq,
      DataListener.ref.injEq]
    omega
  · have a1 := AddListener_absent [] [] (NewDataListener h fn).1 (List.not_mem_nil _) hnil
    have a2 := AddListener_absent [(NewDataListener h fn).1] [(NewDataListener h fn).1]
      (NewDataListener (NewDataListener h fn).2 fn).1
      (by intro hm; exact hne (List.mem_singleton.mp hm).symm) hnil2
    simp only [List.nil_append, List.singleton_append] at a1 a2
    simp only [run, step, World.empty, a1, a2]

/-- C14 (counterexample): on a registry whose listener sequence already holds
the nil listener, `AddListener(nil)` finds it in its scan and returns normally,
without a panic. -/
theorem C14_counterexample :
    AddListener ⟨⟨[DataListener.nil]⟩, []⟩ DataListener.nil
      = Outcome.returned ⟨⟨[DataListener.nil]⟩, []⟩ := by
  decide

/-- C14 (amended): on every registry whose listener sequence does not already
hold the nil listener, `AddListener(nil)` panics instead of returning normally,
and submits nothing. -/
theorem C14_AddListener_nil_panics (s q : List DataListener)
    (hs : DataListener.nil ∉ s) :
    ∃ w1, AddListener ⟨⟨s⟩, q⟩ DataListener.nil = Outcome.panicked w1 ∧ w1.queue = q :=
  ⟨⟨⟨s ++ [DataListener.nil]⟩, q⟩, AddListener_nil_absent s q hs, rfl⟩

theorem C14_AddListener_nil_panics_witness :
    DataListener.nil ∉ [DataListener.ref 1] ∧
    ∃ w1, AddListener ⟨⟨[DataListener.ref 1]⟩, [DataListener.ref 1]⟩ DataListener.nil
        = Outcome.panicked w1 ∧ w1.queue = [DataListener.ref 1] :=
  ⟨by decide, C14_AddListener_nil_panics [DataListener.ref 1] [DataListener.ref 1] (by decide)⟩

/-- C15: let `N` calls of `trigger()` run at the same time on a registry of
non-nil listeners `s`, each submitting its listeners one at a time in registry
order, the submissions of the calls interleaved in any way. Whatever the
schedule, the registry stays `s`, nothing is lost from the queue, and a call
that has not finished can always take its next step, so every schedule can be
run to the end. When all calls have finished, each call has submitted exactly
`s`, in order, and the number of submissions is `N` times the size of the
registry. -/
theorem C15_concurrent_triggers (N : Nat) (s q : List DataListener) (sched : List Nat)
    (c : ConcState) (hs : ∀ x ∈ s, x ≠ DataListener.nil)
    (hrun : concRun sched (concStart N ⟨⟨s⟩, q⟩) = some c) :
    c.b = ⟨s⟩ ∧
    c.queue = q ++ c.log.map Prod.snd ∧
    c.queue.length = q.length + sched.length ∧
    (c.finished ↔ sched.length = N * s.length) ∧
    (c.finished →
      (∀ t, t < N → submittedBy t c.log = s) ∧ c.log.length = N * s.length ∧
        c.queue.length = q.length + N * s.length) ∧
    (¬ c.finished → ∃ t c1, concStep c t = some c1) ∧
    (∃ more c2, concRun (sched ++ more) (concStart N ⟨⟨s⟩, q⟩) = some c2 ∧ c2.finished) := by
  obtain ⟨hinv, hlen⟩ := ConcInv_run N s q sched _ c (ConcInv_start N s q) hrun
  have hlen0 : c.queue.length = q.length + sched.length := by
    rw [hlen]; rfl
  obtain ⟨hb, hpl, hq, hsum, hlog⟩ := hinv
  have hfin : c.finished ↔ sched.length = N * s.length := by
    unfold ConcState.finished
    rw [finished_iff_sum]
    omega
  refine ⟨hb, hq, hlen0, hfin, ?_, ?_, ?_⟩
  · intro hf
    have hk := hfin.mp hf
    refine ⟨?_, ?_, by omega⟩
    · intro t ht
      have hlt : t < c.pending.length := by omega
      have hget : c.pending[t]? = some (c.pending[t]) := List.getElem?_eq_getElem hlt
      have hnil : c.pending[t] = [] := hf _ (List.getElem_mem hlt)
      rw [hnil] at hget
      have := hlog t [] hget
      simpa using this
    · have h2 : c.queue.length = q.length + c.log.length := by
        rw [hq]; simp
      omega
  · exact ConcInv_progress N s q c hs ⟨hb, hpl, hq, hsum, hlog⟩
  · obtain ⟨more, c2, hrun2, hfin2⟩ :=
      ConcInv_complete N s q hs _ c ⟨hb, hpl, hq, hsum, hlog⟩ rfl
    exact ⟨more, c2, by rw [concRun_append sched more _ c hrun, hrun2], hfin2⟩

theorem C15_concurrent_triggers_witness :
    (∀ x ∈ [DataListener.ref 1, DataListener.ref 2], x ≠ DataListener.nil) ∧
    concRun [0, 1, 1, 0] (concStart 2 ⟨⟨[DataListener.ref 1, DataListener.ref 2]⟩, []⟩)
      = some ⟨⟨[DataListener.ref 1, DataListener.ref 2]⟩, [[], []],
          [DataListener.ref 1, DataListener.ref 1, DataListener.ref 2, DataListener.ref 2],
          [(0, DataListener.ref 1), (1, DataListener.ref 1), (1, DataListener.ref 2),
            (0, DataListener.ref 2)]⟩ ∧
    [DataListener.ref 1, DataListener.ref 1, DataListener.ref 2, DataListener.ref 2].length
      = ([] : List DataListener).length + [0, 1, 1, 0].length :=
  ⟨by decide, by decide,
    (C15_concurrent_triggers 2 [DataListener.ref 1, DataListener.ref 2] [] [0, 1, 1, 0]
      ⟨⟨[DataListener.ref 1, DataListener.ref 2]⟩, [[], []],
        [DataListener.ref 1, DataListener.ref 1, DataListener.ref 2, DataListener.ref 2],
        [(0, DataListener.ref 1), (1, DataListener.ref 1), (1, DataListener.ref 2),
          (0, DataListener.ref 2)]⟩
      (by decide) (by decide)).2.2.1⟩

/-- C16: on the two-element sequence `[A, A]`, `RemoveListener(A)` does not
return. The iteration at index 0 matches and shortens the slice to length 1;
the loop still runs over the original length 2, reads the stale `A` at index 1,
matches again, and evaluates `b.listeners[i+1:]` with `i+1 = 2` greater than
the current length 1, which panics. -/
theorem C16_RemoveListener_panics_on_duplicate (A : DataListener) (q : List DataListener) :
    RemoveListener ⟨⟨[A, A]⟩, q⟩ A = Outcome.panicked ⟨⟨[A]⟩, q⟩ ∧
    removeBody A 0 ⟨[A, A], 2⟩ = Outcome.returned ⟨[A, A], 1⟩ ∧
    removeBody A 1 ⟨[A, A], 1⟩ = Outcome.panicked ⟨[A, A], 1⟩ ∧
    (⟨[A, A], 1⟩ : SliceView).len < 1 + 1 := by
  have b0 : removeBody A 0 ⟨[A, A], 2⟩ = Outcome.returned ⟨[A, A], 1⟩ := by
    have h := removeBody_shift A 0 ⟨[A, A], 2⟩ rfl (by show 0 + 1 < 2; omega)
    simpa using h
  have b1 : removeBody A 1 ⟨[A, A], 1⟩ = Outcome.panicked ⟨[A, A], 1⟩ :=
    removeBody_beyond A 1 ⟨[A, A], 1⟩ rfl (by show 1 < 1 + 1; omega)
  refine ⟨?_, b0, b1, by show 1 < 1 + 1; omega⟩
  simp only [RemoveListener, List.length_cons, List.length_nil, removeLoop, b0, b1,
    SliceView.toList, List.take]

theorem eraseSkip_cons_ne (l x : DataListener) (t : List DataListener) (hx : x ≠ l) :
    eraseSkip l (x :: t) = x :: eraseSkip l t ∧ shiftCount l (x :: t) = shiftCount l t := by
  cases t with
  | nil => simp [eraseSkip, shiftCount, hx]
  | cons y ys => simp [eraseSkip, shiftCount, hx]

theorem eraseSkip_append_self (l : DataListener) :
    ∀ s : List DataListener, l ∉ s →
      eraseSkip l (s ++ [l]) = s ∧ shiftCount l (s ++ [l]) = 0 := by
  intro s
  induction s with
  | nil => intro _; simp [eraseSkip, shiftCount]
  | cons x s ih =>
    intro hmem
    have hx : x ≠ l := fun h => hmem (by simp [h])
    have hrest : l ∉ s := fun h => hmem (List.mem_cons_of_mem _ h)
    obtain ⟨h1, h2⟩ := ih hrest
    obtain ⟨e1, e2⟩ := eraseSkip_cons_ne l x (s ++ [l]) hx
    rw [List.cons_append, e1, e2, h1, h2]
    exact ⟨rfl, rfl⟩

theorem run_fire_replicate (s : List DataListener) (hs : ∀ x ∈ s, x ≠ DataListener.nil) :
    ∀ (N : Nat) (q : List DataListener),
      run (List.replicate N Op.fire) ⟨⟨s⟩, q⟩
        = Outcome.returned ⟨⟨s⟩, q ++ (List.replicate N s).flatten⟩ := by
  intro N
  induction N with
  | zero => intro q; simp [run]
  | succ N ih =>
    intro q
    rw [List.replicate_succ, List.replicate_succ]
    simp only [run, step, trigger_nonNil s q hs, ih (q ++ s), List.flatten_cons,
      List.append_assoc]

/-- C17: add and remove are a round trip. For every listener sequence `s`, with
or without duplicates, and every non-nil listener `l` that does not occur in
`s`, `AddListener(l)` followed by `RemoveListener(l)` returns and restores the
listener sequence to exactly `s`. -/
theorem C17_add_remove_roundtrip (s q : List DataListener) (l : DataListener)
    (hl : l ≠ DataListener.nil) (hs : l ∉ s) :
    AddListener ⟨⟨s⟩, q⟩ l = Outcome.returned ⟨⟨s ++ [l]⟩, q ++ [l]⟩ ∧
    RemoveListener ⟨⟨s ++ [l]⟩, q ++ [l]⟩ l = Outcome.returned ⟨⟨s⟩, q ++ [l]⟩ ∧
    run [Op.add l, Op.remove l] ⟨⟨s⟩, q⟩ = Outcome.returned ⟨⟨s⟩, q ++ [l]⟩ := by
  have a1 := AddListener_absent s q l hs hl
  obtain ⟨h1, h2⟩ := eraseSkip_append_self l s hs
  have a2 : RemoveListener ⟨⟨s ++ [l]⟩, q ++ [l]⟩ l = Outcome.returned ⟨⟨s⟩, q ++ [l]⟩ := by
    rw [RemoveListener_eq, h1, h2]
    simp
  refine ⟨a1, a2, ?_⟩
  simp only [run, step, a1, a2]

theorem C17_add_remove_roundtrip_witness :
    DataListener.ref 3 ≠ DataListener.nil ∧
    DataListener.ref 3 ∉ [DataListener.ref 1, DataListener.ref 1, DataListener.ref 2] ∧
    run [Op.add (DataListener.ref 3), Op.remove (DataListener.ref 3)]
        ⟨⟨[DataListener.ref 1, DataListener.ref 1, DataListener.ref 2]⟩, []⟩
      = Outcome.returned ⟨⟨[DataListener.ref 1, DataListener.ref 1, DataListener.ref 2]⟩,
          [DataListener.ref 3]⟩ :=
  ⟨by decide, by decide,
    (C17_add_remove_roundtrip [DataListener.ref 1, DataListener.ref 1, DataListener.ref 2] []
      (DataListener.ref 3) (by decide) (by decide)).2.2⟩

/-- C18: for every `N` and every registry of non-nil listeners `s`, `N`
`trigger()` calls one after the other all return, leave `s` unchanged and
append `N` copies of `s`, back to back, to the submission list; that is
`N * length s` new submissions, and none at all for the empty registry. -/
theorem C18_repeated_trigger (N : Nat) (s q : List DataListener)
    (hs : ∀ x ∈ s, x ≠ DataListener.nil) :
    run (List.replicate N Op.fire) ⟨⟨s⟩, q⟩
      = Outcome.returned ⟨⟨s⟩, q ++ (List.replicate N s).flatten⟩ ∧
    ((List.replicate N s).flatten).length = N * s.length ∧
    run (List.replicate N Op.fire) ⟨⟨[]⟩, q⟩ = Outcome.returned ⟨⟨[]⟩, q⟩ := by
  refine ⟨run_fire_replicate s hs N q, ?_, ?_⟩
  · simp [List.length_flatten]
  · have h := run_fire_replicate [] (by intro x hx; exact absurd hx (List.not_mem_nil x)) N q
    simpa using h

theorem C18_repeated_trigger_witness :
    (∀ x ∈ [DataListener.ref 1, DataListener.ref 2], x ≠ DataListener.nil) ∧
    run (List.replicate 3 Op.fire) ⟨⟨[DataListener.ref 1, DataListener.ref 2]⟩, []⟩
      = Outcome.returned ⟨⟨[DataListener.ref 1, DataListener.ref 2]⟩,
          [] ++ (List.replicate 3 [DataListener.ref 1, DataListener.ref 2]).flatten⟩ :=
  ⟨by decide,
    (C18_repeated_trigger 3 [DataListener.ref 1, DataListener.ref 2] [] (by decide)).1⟩

end Binding
